import Mathlib

/-!
Verification of the state-tracking core of the rustlantis MIR fuzzer.

The development shallowly embeds the three subsystems the claims are about:

* the abstract memory's `Run` borrow-stack protocol
  (`src/generate/src/mem/mod.rs`),
* the place table's projection trees and state-propagation primitives
  (`src/fuzz/src/ptable.rs`),
* the place selector's filtering and weighting (`src/fuzz/src/place_select.rs`).

Machine integers (`usize`, tags, sizes) are modelled as `Nat`; the sizes and
counts involved never approach overflow in the modelled operations.
-/

namespace Mem

/-- `AbstractByte` from `mem/mod.rs`: a byte is either uninitialized or
initialized (provenance is not tracked by the source type either). -/
inductive AbstractByte where
  | uninit
  | init
deriving DecidableEq

/-- `AbstractByte::is_init`. -/
def AbstractByte.is_init : AbstractByte → Bool
  | .init => true
  | .uninit => false

/-- `BorrowType` from `mem/mod.rs`. -/
inductive BorrowType where
  | raw
  | shared
  | exclusive
deriving DecidableEq

/-- `Borrow` from `mem/mod.rs`. The `protected` field is named `isProtected`
because `protected` is a reserved word in Lean. -/
structure Borrow where
  borrow_type : BorrowType
  tag : Nat
  isProtected : Bool
deriving DecidableEq

/-- One segment of the `RangeMap<Vec<Borrow>>` used as a `Run`'s `ref_stack`:
a byte sub-range `[start, stop)` together with its borrow stack. -/
structure Seg where
  start : Nat
  stop : Nat
  stack : List Borrow
deriving DecidableEq

/-- Whether a segment is yielded by `ref_stack.iter(offset, len)`: the segment
intersects the queried byte range `[offset, offset + len)`. -/
def Seg.covered (s : Seg) (offset len : Nat) : Bool :=
  decide (s.start < offset + len) && decide (offset < s.stop)

/-- A `Run` from `mem/mod.rs`: contiguous bytes plus a borrow stack keyed by
byte sub-ranges. -/
structure Run where
  bytes : List AbstractByte
  ref_stack : List Seg
deriving DecidableEq

instance : Inhabited Run := ⟨⟨[], []⟩⟩

/-- `Iterator::position`: index of the first element satisfying `p`. -/
def listPosition {α : Type} (p : α → Bool) : List α → Option Nat
  | [] => none
  | a :: rest => if p a then some 0 else (listPosition p rest).map (· + 1)

/-- The per-stack body of `Run::can_write_with`: compute the position of the
first shared borrow; reject when anything at or above it is protected; then
search for `tag` strictly below it (or in the whole stack when no shared
borrow exists). -/
def stack_can_write (stack : List Borrow) (tag : Nat) : Bool :=
  match listPosition (fun b => b.borrow_type == .shared) stack with
  | some first_shared =>
    if (stack.drop first_shared).any (fun b => b.isProtected) then false
    else (stack.take first_shared).any (fun b => b.tag == tag)
  | none => stack.any (fun b => b.tag == tag)

/-- `Run::can_write_with`: every covered sub-range's stack must pass the
per-stack write check. -/
def Run.can_write_with (r : Run) (offset len tag : Nat) : Bool :=
  (r.ref_stack.filter (fun s => s.covered offset len)).all
    (fun s => stack_can_write s.stack tag)

/-- The per-stack write condition exactly as the claim words it ("tag must
occur below (or at) the first shared borrow"): same as the code's check
except that the search range for `tag` INCLUDES the first shared borrow. -/
def claim_stack_can_write (stack : List Borrow) (tag : Nat) : Bool :=
  match listPosition (fun b => b.borrow_type == .shared) stack with
  | some first_shared =>
    !(stack.drop first_shared).any (fun b => b.isProtected) &&
      (stack.take (first_shared + 1)).any (fun b => b.tag == tag)
  | none => stack.any (fun b => b.tag == tag)

/-- `can_write_with` as the claim describes it, quantified over covered
sub-ranges. -/
def claim_can_write_with (r : Run) (offset len tag : Nat) : Bool :=
  (r.ref_stack.filter (fun s => s.covered offset len)).all
    (fun s => claim_stack_can_write s.stack tag)

theorem listPosition_eq_none {α : Type} (p : α → Bool) (l : List α) :
    listPosition p l = none ↔ ∀ a ∈ l, p a = false := by
  induction l with
  | nil => simp [listPosition]
  | cons a rest ih =>
    by_cases h : p a <;> simp [listPosition, h, ih]

theorem listPosition_eq_some {α : Type} (p : α → Bool) (l : List α) (i : Nat)
    (h : listPosition p l = some i) :
    (∃ b, l.get? i = some b ∧ p b = true) ∧
      ∀ j c, j < i → l.get? j = some c → p c = false := by
  induction l generalizing i with
  | nil => simp [listPosition] at h
  | cons a rest ih =>
    by_cases hpa : p a
    · simp [listPosition, hpa] at h
      subst h
      exact ⟨⟨a, rfl, hpa⟩, fun j c hj => by omega⟩
    · simp [listPosition, hpa, Option.map_eq_some'] at h
      obtain ⟨i', hi', rfl⟩ := h
      obtain ⟨⟨b, hb, hpb⟩, hmin⟩ := ih i' hi'
      refine ⟨⟨b, by simpa using hb, hpb⟩, ?_⟩
      intro j c hj hc
      cases j with
      | zero =>
        simp at hc
        subst hc
        simpa using hpa
      | succ j' => exact hmin j' c (by omega) (by simpa using hc)

theorem any_drop_iff {α : Type} (l : List α) (p : α → Bool) (i : Nat) :
    (l.drop i).any p = true ↔
      ∃ j c, i ≤ j ∧ l.get? j = some c ∧ p c = true := by
  induction l generalizing i with
  | nil => simp
  | cons a rest ih =>
    cases i with
    | zero =>
      simp only [List.drop_zero, List.any_eq_true]
      constructor
      · rintro ⟨c, hc, hpc⟩
        obtain ⟨j, hj⟩ := List.mem_iff_get?.mp hc
        exact ⟨j, c, Nat.zero_le _, hj, hpc⟩
      · rintro ⟨j, c, -, hj, hpc⟩
        exact ⟨c, List.get?_mem hj, hpc⟩
    | succ i' =>
      simp only [List.drop_succ_cons]
      rw [ih]
      constructor
      · rintro ⟨j, c, hij, hj, hpc⟩
        exact ⟨j + 1, c, by omega, by simpa using hj, hpc⟩
      · rintro ⟨j, c, hij, hj, hpc⟩
        cases j with
        | zero => omega
        | succ j' => exact ⟨j', c, by omega, by simpa using hj, hpc⟩

theorem any_take_iff {α : Type} (l : List α) (p : α → Bool) (i : Nat) :
    (l.take i).any p = true ↔
      ∃ j c, j < i ∧ l.get? j = some c ∧ p c = true := by
  induction l generalizing i with
  | nil => simp
  | cons a rest ih =>
    cases i with
    | zero => simp
    | succ i' =>
      simp only [List.take_succ_cons, List.any_cons]
      rw [Bool.or_eq_true, ih]
      constructor
      · rintro (hpa | ⟨j, c, hij, hj, hpc⟩)
        · exact ⟨0, a, by omega, rfl, hpa⟩
        · exact ⟨j + 1, c, by omega, by simpa using hj, hpc⟩
      · rintro ⟨j, c, hij, hj, hpc⟩
        cases j with
        | zero =>
          left
          simp at hj
          subst hj
          exact hpc
        | succ j' => exact Or.inr ⟨j', c, by omega, by simpa using hj, hpc⟩

/-- The amended per-stack write condition, spelled out positionally: if a
first shared borrow exists (an index `i` holding a shared borrow with no
shared borrow before it), then nothing at or above `i` is protected and `tag`
occurs STRICTLY below `i`; if no shared borrow exists, `tag` occurs somewhere
in the stack. -/
def spec_stack_can_write (stack : List Borrow) (tag : Nat) : Prop :=
  (∀ i b, stack.get? i = some b → b.borrow_type = .shared →
    (∀ j c, j < i → stack.get? j = some c → c.borrow_type ≠ .shared) →
    ((∀ j c, i ≤ j → stack.get? j = some c → c.isProtected = false) ∧
      (∃ j c, j < i ∧ stack.get? j = some c ∧ c.tag = tag))) ∧
  ((∀ b ∈ stack, b.borrow_type ≠ .shared) →
    ∃ c ∈ stack, c.tag = tag)

theorem stack_can_write_iff (stack : List Borrow) (tag : Nat) :
    stack_can_write stack tag = true ↔ spec_stack_can_write stack tag := by
  unfold stack_can_write spec_stack_can_write
  cases hpos : listPosition (fun b => b.borrow_type == .shared) stack with
  | none =>
    have hall := (listPosition_eq_none _ _).mp hpos
    have hnosh : ∀ b ∈ stack, b.borrow_type ≠ .shared := by
      intro b hb
      simpa using hall b hb
    constructor
    · intro h
      refine ⟨?_, fun _ => ?_⟩
      · intro i b hib hsh _
        exact absurd hsh (hnosh b (List.get?_mem hib))
      · obtain ⟨c, hc, hct⟩ := List.any_eq_true.mp h
        exact ⟨c, hc, by simpa using hct⟩
    · rintro ⟨-, h2⟩
      obtain ⟨c, hc, hct⟩ := h2 hnosh
      exact List.any_eq_true.mpr ⟨c, hc, by simpa using hct⟩
  | some i =>
    obtain ⟨⟨b0, hb0, hb0sh⟩, hmin⟩ := listPosition_eq_some _ _ _ hpos
    replace hb0sh : b0.borrow_type = .shared := by simpa using hb0sh
    have hminsh : ∀ j c, j < i → stack.get? j = some c → c.borrow_type ≠ .shared := by
      intro j c hj hc
      have := hmin j c hj hc
      simpa using this
    have hsplit :
        (if (stack.drop i).any (fun b => b.isProtected) then false
          else (stack.take i).any (fun b => b.tag == tag)) = true ↔
          (stack.drop i).any (fun b => b.isProtected) = false ∧
            (stack.take i).any (fun b => b.tag == tag) = true := by
      by_cases hp : (stack.drop i).any (fun b => b.isProtected) <;> simp [hp]
    rw [hsplit]
    have hprot :
        (stack.drop i).any (fun b => b.isProtected) = false ↔
          ∀ j c, i ≤ j → stack.get? j = some c → c.isProtected = false := by
      rw [Bool.eq_false_iff, Ne, any_drop_iff]
      push_neg
      simp only [Bool.not_eq_true]
    have htag :
        (stack.take i).any (fun b => b.tag == tag) = true ↔
          ∃ j c, j < i ∧ stack.get? j = some c ∧ c.tag = tag := by
      rw [any_take_iff]
      constructor
      · rintro ⟨j, c, hj, hjc, hct⟩
        exact ⟨j, c, hj, hjc, by simpa using hct⟩
      · rintro ⟨j, c, hj, hjc, hct⟩
        exact ⟨j, c, hj, hjc, by simpa using hct⟩
    rw [hprot, htag]
    constructor
    · rintro ⟨h1, h2⟩
      refine ⟨?_, ?_⟩
      · intro i' b hib hbsh hminb
        have hii : i' = i := by
          rcases Nat.lt_trichotomy i' i with hlt | heq | hgt
          · exact absurd hbsh (hminsh i' b hlt hib)
          · exact heq
          · exact absurd hb0sh (hminb i b0 hgt hb0)
        subst hii
        exact ⟨h1, h2⟩
      · intro hno
        exact absurd hb0sh (hno b0 (List.get?_mem hb0))
    · rintro ⟨h1, -⟩
      exact h1 i b0 hb0 hb0sh hminsh

/-- The single-segment run whose only borrow stack holds one unprotected
shared borrow with tag 0. -/
def c5run : Run := ⟨[], [⟨0, 1, [⟨.shared, 0, false⟩]⟩]⟩

/-- C5 counterexample: on a stack whose first (and only) borrow is an
unprotected shared borrow carrying the querying tag, the claim's condition
("tag must occur below (or at) the first shared borrow") holds, yet
`can_write_with` returns false: the code searches for the tag STRICTLY below
the first shared borrow. -/
theorem c5_counterexample :
    c5run.can_write_with 0 1 0 = false ∧ claim_can_write_with c5run 0 1 0 = true := by
  exact ⟨rfl, rfl⟩

/-- C5, amended: `can_write_with(range, tag)` returns true iff for every
covered sub-range's borrow stack: when a shared borrow exists in the stack,
no borrow at or above the first shared borrow is protected and `tag` occurs
STRICTLY below the first shared borrow; when no shared borrow exists, `tag`
occurs somewhere in the stack. -/
theorem c5_can_write_amended (r : Run) (offset len tag : Nat) :
    r.can_write_with offset len tag = true ↔
      ∀ s ∈ r.ref_stack, s.covered offset len = true →
        spec_stack_can_write s.stack tag := by
  unfold Run.can_write_with
  rw [List.all_eq_true]
  constructor
  · intro h s hs hcov
    exact (stack_can_write_iff _ _).mp (h s (List.mem_filter.mpr ⟨hs, hcov⟩))
  · intro h s hs
    obtain ⟨hmem, hcov⟩ := List.mem_filter.mp hs
    exact (stack_can_write_iff _ _).mpr (h s hmem hcov)

/-- The per-stack body of `Run::remove_all_above`: find the position of the
borrow carrying `tag`; truncate the stack to everything STRICTLY below it
(so the borrow carrying `tag` is removed too) and report the tags of all
removed borrows; a stack without `tag` is left unchanged. There is no check
of the `protected` flag here (the assertion lives only in
`Run::remove_borrow`). -/
def stack_remove_all_above (stack : List Borrow) (tag : Nat) :
    List Borrow × List Nat :=
  match listPosition (fun b => b.tag == tag) stack with
  | some i => (stack.take i, (stack.drop i).map (fun b => b.tag))
  | none => (stack, [])

/-- The effect of `Run::remove_all_above` on a single segment: covered
segments get the stack truncation, others are untouched. -/
def segRemove (offset len tag : Nat) (s : Seg) : Seg × List Nat :=
  if s.covered offset len then
    ({ s with stack := (stack_remove_all_above s.stack tag).1 },
      (stack_remove_all_above s.stack tag).2)
  else (s, [])

/-- `Run::remove_all_above`: apply the truncation to every covered
sub-range's stack and concatenate the removed tags in segment order. -/
def Run.remove_all_above (r : Run) (offset len tag : Nat) : Run × List Nat :=
  let segs := r.ref_stack.map (segRemove offset len tag)
  ({ r with ref_stack := segs.map Prod.fst }, (segs.map Prod.snd).flatten)

/-- `RunPointer` from `mem/mod.rs`, with `run_and_offset` flattened into the
`run` and `offset` fields. -/
structure RunPointer where
  alloc_id : Nat
  run : Nat
  offset : Nat
  size : Nat
deriving DecidableEq

/-- `RangeExt::overlap` on the two pointers' byte ranges. The source compares
the half-open ranges with `<=`, so adjacent ranges count as overlapping. -/
def RunPointer.range_overlap (a b : RunPointer) : Bool :=
  decide (a.offset ≤ b.offset + b.size) && decide (b.offset ≤ a.offset + a.size)

/-- `RunPointer::overlap`. -/
def RunPointer.overlap (a b : RunPointer) : Bool :=
  a.alloc_id == b.alloc_id && a.run == b.run && a.range_overlap b

/-- `RangeExt::subtract` combined with `RunPointer::from_bytes_range`: the
up-to-two remainders of `a`'s byte range after removing `b`'s. -/
def RunPointer.subtract (a b : RunPointer) : List RunPointer :=
  (if a.offset < b.offset then
    [{ a with size := b.offset - a.offset }]
  else []) ++
  (if b.offset + b.size < a.offset + a.size then
    [{ a with offset := b.offset + b.size,
              size := a.offset + a.size - (b.offset + b.size) }]
  else [])

/-- `Allocation` from `mem/mod.rs`. -/
structure Allocation where
  runs : List Run
  live : Bool

instance : Inhabited Allocation := ⟨⟨[], true⟩⟩

/-- `BasicMemory`: the allocations plus the tag-to-occupied-ranges side
table (the `pointers` HashMap, modelled as a function from tags). -/
structure BasicMemory where
  allocations : List Allocation
  pointers : Nat → Option (List RunPointer)

/-- The run addressed by a run pointer
(`allocations[rp.alloc_id].runs[rp.run()]`). -/
def BasicMemory.getRun (m : BasicMemory) (rp : RunPointer) : Run :=
  (m.allocations.getD rp.alloc_id default).runs.getD rp.run default

/-- Store an updated run back at the run pointer's position. -/
def BasicMemory.setRun (m : BasicMemory) (rp : RunPointer) (r : Run) : BasicMemory :=
  let alloc := m.allocations.getD rp.alloc_id default
  { m with
    allocations :=
      m.allocations.set rp.alloc_id { alloc with runs := alloc.runs.set rp.run r } }

/-- `BasicMemory::derange`: remove the byte range `run_ptr` from `tag`'s
side-table entry, splitting overlapping stored ranges as necessary and
dropping the entry when it becomes empty. -/
def BasicMemory.derange (m : BasicMemory) (tag : Nat) (run_ptr : RunPointer) :
    BasicMemory :=
  match m.pointers tag with
  | none => m
  | some all =>
    let updated := all.flatMap (fun stored =>
      if stored.overlap run_ptr then stored.subtract run_ptr else [stored])
    if updated.isEmpty then
      { m with pointers := fun t => if t = tag then none else m.pointers t }
    else
      { m with pointers := fun t => if t = tag then some updated else m.pointers t }

/-- One step of the loop in `BasicMemory::remove_tags_above`: derange the
removed tag and record it when its side-table entry is gone. -/
def derangeStep (rp : RunPointer) (acc : BasicMemory × List Nat) (e : Nat) :
    BasicMemory × List Nat :=
  let m2 := acc.1.derange e rp
  match m2.pointers e with
  | none => (m2, acc.2 ++ [e])
  | some _ => (m2, acc.2)

/-- `BasicMemory::remove_tags_above`: remove every borrow at `tag` and above
from the covered stacks of the addressed run, then derange each removed tag
and return those whose side-table entry is gone. -/
def BasicMemory.remove_tags_above (m : BasicMemory) (tag : Nat) (rp : RunPointer) :
    BasicMemory × List Nat :=
  let res := (m.getRun rp).remove_all_above rp.offset rp.size tag
  let m1 := m.setRun rp res.1
  res.2.foldl (derangeStep rp) (m1, [])

theorem derangeStep_fst (rp : RunPointer) (acc : BasicMemory × List Nat) (e : Nat) :
    (derangeStep rp acc e).1 = acc.1.derange e rp := by
  unfold derangeStep
  cases h : (acc.1.derange e rp).pointers e <;> simp [h]

theorem derange_pointers_ne (m : BasicMemory) (tag : Nat) (rp : RunPointer)
    (t : Nat) (h : t ≠ tag) : (m.derange tag rp).pointers t = m.pointers t := by
  unfold BasicMemory.derange
  cases hp : m.pointers tag with
  | none => rfl
  | some all =>
    by_cases he : (all.flatMap (fun stored =>
        if stored.overlap rp then stored.subtract rp else [stored])).isEmpty <;>
      simp [he, h]

theorem foldl_derangeStep_pointers (rp : RunPointer) (es : List Nat)
    (acc : BasicMemory × List Nat) (t : Nat) (h : t ∉ es) :
    ((es.foldl (derangeStep rp) acc).1).pointers t = acc.1.pointers t := by
  induction es generalizing acc with
  | nil => rfl
  | cons e rest ih =>
    simp only [List.foldl_cons]
    rw [ih _ (fun hm => h (List.mem_cons_of_mem _ hm))]
    rw [derangeStep_fst]
    exact derange_pointers_ne _ _ _ _ (fun ht => h (ht ▸ List.mem_cons_self e rest))

theorem foldl_derangeStep_snd (rp : RunPointer) (es : List Nat)
    (acc : BasicMemory × List Nat) (hnd : es.Nodup) :
    (es.foldl (derangeStep rp) acc).2 =
      acc.2 ++ es.filter
        (fun e => (((es.foldl (derangeStep rp) acc).1).pointers e).isNone) := by
  induction es generalizing acc with
  | nil => simp
  | cons e rest ih =>
    obtain ⟨hne, hnd'⟩ := List.nodup_cons.mp hnd
    simp only [List.foldl_cons]
    rw [ih _ hnd']
    have hfix : ((rest.foldl (derangeStep rp) (derangeStep rp acc e)).1).pointers e =
        ((derangeStep rp acc e).1).pointers e :=
      foldl_derangeStep_pointers rp rest _ e hne
    have hsnd : (derangeStep rp acc e).2 =
        acc.2 ++ (if (((derangeStep rp acc e).1).pointers e).isNone then [e] else []) := by
      unfold derangeStep
      cases h : (acc.1.derange e rp).pointers e <;> simp [h]
    rw [hsnd, List.filter_cons, hfix]
    by_cases hc : (((derangeStep rp acc e).1).pointers e).isNone = true
    · simp [hc]
    · simp [hc]

/-- A run with one segment whose stack is an exclusive borrow (tag 0) below
a PROTECTED shared borrow (tag 1). -/
def c6run : Run :=
  ⟨[], [⟨0, 8, [⟨.exclusive, 0, false⟩, ⟨.shared, 1, true⟩]⟩]⟩

/-- The whole of `c6run`. -/
def c6rpA : RunPointer := ⟨0, 0, 0, 8⟩

/-- A second run in the same allocation, also occupied by tag 1. -/
def c6rpB : RunPointer := ⟨0, 1, 0, 8⟩

/-- Memory holding `c6run`, with tag 0 occupying only `c6rpA` and tag 1
occupying both `c6rpA` and `c6rpB`. -/
def c6mem : BasicMemory :=
  ⟨[⟨[c6run, ⟨[], []⟩], true⟩],
    fun t => if t = 0 then some [c6rpA] else if t = 1 then some [c6rpA, c6rpB] else none⟩

/-- C6 counterexample: `remove_tags_above(0, c6rpA)` truncates the stack at
tag 0's borrow, removing the PROTECTED borrow carrying tag 1 (the removed
tags are `[0, 1]` and the stack is emptied) — yet the call completes
normally with no assertion, and it does NOT return every removed tag: tag 1
still occupies `c6rpB`, so only `[0]` is returned. -/
theorem c6_counterexample :
    (c6mem.remove_tags_above 0 c6rpA).2 = [0] ∧
    ((c6mem.getRun c6rpA).remove_all_above 0 8 0).2 = [0, 1] ∧
    (((c6mem.remove_tags_above 0 c6rpA).1).getRun c6rpA).ref_stack = [⟨0, 8, []⟩] ∧
    Borrow.isProtected ⟨.shared, 1, true⟩ = true ∧
    (1 : Nat) ∉ (c6mem.remove_tags_above 0 c6rpA).2 := by
  refine ⟨?_, ?_, ?_, rfl, ?_⟩ <;> decide

/-- C6, amended: `remove_tags_above(tag, range)` truncates each covered
sub-range's borrow stack down to (and removing) the borrow carrying `tag`;
every borrow from that position upward has its tag recorded in the Run-level
removed list (stacks without `tag`, and uncovered sub-ranges, are left
unchanged); the function then returns only the removed tags whose side-table
entry is gone after subtracting the range — not every removed tag — and no
assertion guards against removing a protected borrow. -/
theorem c6_remove_tags_above_amended (r : Run) (offset len tag : Nat)
    (m : BasicMemory) (rp : RunPointer)
    (hnd : (((m.getRun rp).remove_all_above rp.offset rp.size tag).2).Nodup) :
    (∀ k s, r.ref_stack.get? k = some s →
      ∃ s2, (r.remove_all_above offset len tag).1.ref_stack.get? k = some s2 ∧
        (s.covered offset len = false → s2 = s) ∧
        (listPosition (fun b => b.tag == tag) s.stack = none → s2 = s) ∧
        (∀ i, s.covered offset len = true →
          listPosition (fun b => b.tag == tag) s.stack = some i →
          s2.start = s.start ∧ s2.stop = s.stop ∧ s2.stack = s.stack.take i ∧
            ∀ b ∈ s.stack.drop i, b.tag ∈ (r.remove_all_above offset len tag).2)) ∧
    ((m.remove_tags_above tag rp).2 =
      (((m.getRun rp).remove_all_above rp.offset rp.size tag).2).filter
        (fun e => (((m.remove_tags_above tag rp).1).pointers e).isNone)) := by
  constructor
  · intro k s hk
    refine ⟨(segRemove offset len tag s).1, ?_, ?_, ?_, ?_⟩
    · show (r.remove_all_above offset len tag).1.ref_stack.get? k = _
      unfold Run.remove_all_above
      simp only [List.map_map, List.get?_map, hk, Option.map_some']
      rfl
    · intro hcov
      simp [segRemove, hcov]
    · intro hpos
      by_cases hcov : s.covered offset len <;>
        simp [segRemove, hcov, stack_remove_all_above, hpos]
    · intro i hcov hpos
      refine ⟨by simp [segRemove, hcov, stack_remove_all_above, hpos], by
        simp [segRemove, hcov, stack_remove_all_above, hpos], by
        simp [segRemove, hcov, stack_remove_all_above, hpos], ?_⟩
      intro b hb
      unfold Run.remove_all_above
      simp only [List.map_map]
      rw [List.mem_flatten]
      refine ⟨(s.stack.drop i).map (fun b => b.tag), ?_, List.mem_map_of_mem _ hb⟩
      rw [List.mem_map]
      refine ⟨s, List.get?_mem hk, ?_⟩
      simp [segRemove, hcov, stack_remove_all_above, hpos]
  · show (((m.getRun rp).remove_all_above rp.offset rp.size tag).2.foldl
        (derangeStep rp)
        (m.setRun rp ((m.getRun rp).remove_all_above rp.offset rp.size tag).1, [])).2 = _
    rw [foldl_derangeStep_snd _ _ _ hnd]
    simp [BasicMemory.remove_tags_above]

/-- Witness for the amended C6 theorem at the concrete memory `c6mem`. -/
theorem c6_witness :
    (c6mem.remove_tags_above 0 c6rpA).2 =
      (((c6mem.getRun c6rpA).remove_all_above c6rpA.offset c6rpA.size 0).2).filter
        (fun e => (((c6mem.remove_tags_above 0 c6rpA).1).pointers e).isNone) :=
  (c6_remove_tags_above_amended c6run 0 8 0 c6mem c6rpA (by decide)).2

/-- Witness for the amended C5 theorem: in a stack holding only an exclusive
borrow with tag 0, writing with tag 0 is allowed, and the amended spec-side
condition follows from the theorem. -/
theorem c5_witness :
    spec_stack_can_write [⟨.exclusive, 0, false⟩] 0 :=
  (c5_can_write_amended ⟨[], [⟨0, 1, [⟨.exclusive, 0, false⟩]⟩]⟩ 0 1 0).mp (by decide)
    ⟨0, 1, [⟨.exclusive, 0, false⟩]⟩ (by decide) (by decide)

end Mem

namespace Select

/-- `PlaceUsage` from `place_select.rs`. -/
inductive PlaceUsage where
  | operand
  | lhs
  | pointee
  | argument
  | knownVal
deriving DecidableEq

/-- The attributes of one candidate `PlacePath` as `into_iter_path` and
`into_weighted` read them back from the place table: liveness of the target
(`pt.is_place_live`), the target node's interned type id, its
initialization state (`pt.is_place_init`), whether it caches a literal
(`node.val.is_some()`), whether it overlaps an excluded place or a pending
return destination (the `pt.overlap` check against `exclusion_indicies`),
`pt.get_dataflow` of the target (which for pointer-typed places follows the
pointee edge), whether the path starts at the return slot
(`is_return_proj`), whether the access path passes through a `Deref`
projection, and whether the target's type contains a pointer type. -/
structure Candidate where
  live : Bool
  ty : Nat
  isInit : Bool
  hasVal : Bool
  excluded : Bool
  dataflow : Nat
  isRetProj : Bool
  hasDeref : Bool
  tyHasPtr : Bool
deriving DecidableEq

/-- The `PlaceSelector` builder fields that resolution consumes (the
exclusion places themselves are folded into each candidate's `excluded`
attribute, see `Candidate`). -/
structure PlaceSelector where
  tys : List Nat
  allow_uninit : Bool
  usage : PlaceUsage

/-- The filter applied by `PlaceSelector::into_iter_path`. -/
def passesFilter (sel : PlaceSelector) (c : Candidate) : Bool :=
  let ty_allowed := if sel.tys.isEmpty then true else sel.tys.contains c.ty
  let not_excluded := !c.excluded
  let initness_allowed := if sel.allow_uninit then true else c.isInit
  let literalness := if sel.usage == .knownVal then c.hasVal else true
  c.live && ty_allowed && not_excluded && initness_allowed && literalness

/-- The weight `into_weighted` assigns to one candidate: the usage-dependent
base weight, then doubled when the access path passes through a Deref. -/
def placeWeight (usage : PlaceUsage) (c : Candidate) : Nat :=
  let w := match usage with
    | .argument =>
      let w := c.dataflow
      let w := if c.tyHasPtr then w * 10 else w
      if c.hasVal then w * 2 else w
    | .lhs =>
      let w := if !c.isInit then 2 else 1
      let w := if c.isRetProj then w * 2 else w
      w * 1000 / max c.dataflow 1
    | .operand => c.dataflow
    | .pointee => 1
    | .knownVal => c.dataflow
  if c.hasDeref then w * 2 else w

/-- `WeightedIndex::new` from rand_distr as used through `.ok()`: it fails
exactly on an empty weight sequence or a zero total weight. -/
def weightedIndexNew (ws : List Nat) : Option (List Nat) :=
  if ws.isEmpty || ws.sum == 0 then none else some ws

/-- `PlaceSelector::into_weighted` over the filtered candidate list: zip the
filtered places with their weights; succeed only when `WeightedIndex::new`
accepts the weight vector. -/
def into_weighted (sel : PlaceSelector) (cands : List Candidate) :
    Option (List Candidate × List Nat) :=
  match weightedIndexNew
      ((cands.filter (passesFilter sel)).map (placeWeight sel.usage)) with
  | some w => some (cands.filter (passesFilter sel), w)
  | none => none

/-- `SelectionError` from `generation.rs`. -/
inductive SelectionError where
  | exhausted
  | noPossibleOp
deriving DecidableEq

/-- The resolution pattern at the `generation.rs` call sites:
`.ok_or(SelectionError::Exhausted)`. -/
def resolveSelector (sel : PlaceSelector) (cands : List Candidate) :
    Except SelectionError (List Candidate × List Nat) :=
  match into_weighted sel cands with
  | some x => .ok x
  | none => .error .exhausted

/-- C8: a selector whose type filter only names types that no candidate has
resolves to the recoverable `Exhausted` outcome; and in general
`into_weighted` returns `None` exactly when the filtered candidate set is
empty or its total weight is zero — the empty/zero case is never coerced to
a default choice. -/
theorem c8_exhausted (sel : PlaceSelector) (cands : List Select.Candidate) :
    (sel.tys ≠ [] → (∀ c ∈ cands, c.ty ∉ sel.tys) →
      resolveSelector sel cands = .error .exhausted) ∧
    (into_weighted sel cands = none ↔
      cands.filter (passesFilter sel) = [] ∨
        ((cands.filter (passesFilter sel)).map (placeWeight sel.usage)).sum = 0) := by
  constructor
  · intro hne habsent
    have hfil : cands.filter (passesFilter sel) = [] := by
      rw [List.filter_eq_nil_iff]
      intro c hc
      have h1 : sel.tys.isEmpty = false := by
        cases h : sel.tys with
        | nil => exact absurd h hne
        | cons a l => rfl
      simp [passesFilter, h1]
      intro _ hmem
      exact absurd hmem (habsent c hc)
    unfold resolveSelector into_weighted
    simp [hfil, weightedIndexNew]
  · unfold into_weighted weightedIndexNew
    by_cases he : cands.filter (passesFilter sel) = []
    · simp [he]
    · have he' : ((cands.filter (passesFilter sel)).map
          (placeWeight sel.usage)).isEmpty = false := by
        simp [List.isEmpty_iff, he]
      by_cases hz :
          ((cands.filter (passesFilter sel)).map (placeWeight sel.usage)).sum = 0
      · simp [he', hz, he]
      · have hz' : (((cands.filter (passesFilter sel)).map
            (placeWeight sel.usage)).sum == 0) = false := by simpa using hz
        simp [he', hz', he, hz]

/-- Witness for C8: a selector filtering for type id 5 against a single
live candidate of type id 3 resolves to `Exhausted`. -/
theorem c8_witness :
    resolveSelector ⟨[5], true, .operand⟩
      [⟨true, 3, true, false, false, 1, false, false, false⟩] = .error .exhausted :=
  (c8_exhausted ⟨[5], true, .operand⟩
    [⟨true, 3, true, false, false, 1, false, false, false⟩]).1
    (by decide) (by decide)

/-- The left-hand-side weight formula exactly as the claim words it: 2 if
uninitialized else 1, times 2 if the candidate is (a projection of) the
active return slot, then times 1000 and divided by `max(dataflow, 1)`, and
finally times 2 if the access path passes through a dereference. -/
def claimLhsWeight (c : Candidate) : Nat :=
  (if c.isInit then 1 else 2) * (if c.isRetProj then 2 else 1) * 1000 /
      max c.dataflow 1 *
    (if c.hasDeref then 2 else 1)

/-- The usage-dependent base weight as the spec's weighting table words it,
BEFORE the dereference doubling: operand/known-value use the dataflow, the
left-hand side uses the uninit/return-slot/division formula, arguments use
the dataflow times 10 for pointer-carrying types and times 2 for known
literals, and pointees weigh a constant 1. -/
def claimBaseWeight (usage : PlaceUsage) (c : Candidate) : Nat :=
  match usage with
  | .operand => c.dataflow
  | .lhs =>
    (if c.isInit then 1 else 2) * (if c.isRetProj then 2 else 1) * 1000 /
      max c.dataflow 1
  | .argument =>
    c.dataflow * (if c.tyHasPtr then 10 else 1) * (if c.hasVal then 2 else 1)
  | .pointee => 1
  | .knownVal => c.dataflow

/-- C9: under `PlaceUsage::LHS`, the weight vector built by `into_weighted`
assigns every filtered candidate exactly the claim's formula; and for EVERY
usage the assigned weight is the usage's base weight further multiplied by
2 exactly when the candidate's access path passes through at least one
dereference projection. -/
theorem c9_lhs_weight (sel : PlaceSelector) (cands : List Candidate) :
    (∀ res, sel.usage = .lhs → into_weighted sel cands = some res →
      res.2 = (cands.filter (passesFilter sel)).map claimLhsWeight) ∧
    (∀ (usage : PlaceUsage) (c : Candidate),
      placeWeight usage c = claimBaseWeight usage c * (if c.hasDeref then 2 else 1)) := by
  have hw : ∀ c : Candidate, placeWeight .lhs c = claimLhsWeight c := by
    intro c
    unfold placeWeight claimLhsWeight
    cases hi : c.isInit <;> cases hr : c.isRetProj <;> cases hd : c.hasDeref <;>
      simp [hi, hr, hd, Nat.mul_comm]
  constructor
  · intro res h hres
    unfold into_weighted at hres
    cases hwi : weightedIndexNew
        ((cands.filter (passesFilter sel)).map (placeWeight sel.usage)) with
    | none => rw [hwi] at hres; cases hres
    | some w =>
      rw [hwi] at hres
      simp only [Option.some.injEq] at hres
      subst hres
      show w = _
      unfold weightedIndexNew at hwi
      by_cases hcond : ((cands.filter (passesFilter sel)).map
          (placeWeight sel.usage)).isEmpty ||
          (((cands.filter (passesFilter sel)).map (placeWeight sel.usage)).sum == 0)
      · rw [if_pos hcond] at hwi; cases hwi
      · rw [if_neg hcond] at hwi
        obtain rfl : (cands.filter (passesFilter sel)).map (placeWeight sel.usage) = w :=
          Option.some_inj.mp hwi
        rw [h]
        exact List.map_congr_left (fun c _ => hw c)
  · intro usage c
    cases usage with
    | operand =>
      unfold placeWeight claimBaseWeight
      cases hd : c.hasDeref <;> simp [hd, Nat.mul_comm]
    | lhs =>
      unfold placeWeight claimBaseWeight
      cases hd : c.hasDeref <;> cases hi : c.isInit <;> cases hr : c.isRetProj <;>
        simp [hd, hi, hr, Nat.mul_comm]
    | pointee =>
      unfold placeWeight claimBaseWeight
      cases hd : c.hasDeref <;> simp [hd, Nat.mul_comm]
    | knownVal =>
      unfold placeWeight claimBaseWeight
      cases hd : c.hasDeref <;> simp [hd, Nat.mul_comm]
    | argument =>
      unfold placeWeight claimBaseWeight
      cases hd : c.hasDeref <;> cases hp : c.tyHasPtr <;> cases hv : c.hasVal <;>
        simp [hd, hp, hv, Nat.mul_comm]

/-- Witness for C9: an uninitialized, return-projected, dereffed LHS
candidate with dataflow 4 receives weight 2 * 2 * 1000 / 4 * 2 = 2000, and
a dereffed operand candidate with dataflow 4 receives twice its base
weight. -/
theorem c9_witness :
    (([2000] : List Nat) =
      (([⟨true, 3, false, false, false, 4, true, true, false⟩] :
          List Candidate).filter (passesFilter ⟨[], true, .lhs⟩)).map
        claimLhsWeight) ∧
    placeWeight .operand ⟨true, 3, true, false, false, 4, false, true, false⟩ =
      claimBaseWeight .operand ⟨true, 3, true, false, false, 4, false, true, false⟩ *
        2 :=
  ⟨(c9_lhs_weight ⟨[], true, .lhs⟩
      [⟨true, 3, false, false, false, 4, true, true, false⟩]).1
    ([⟨true, 3, false, false, false, 4, true, true, false⟩], [2000]) rfl (by decide),
   (c9_lhs_weight ⟨[], true, .lhs⟩ []).2 .operand
    ⟨true, 3, true, false, false, 4, false, true, false⟩⟩

end Select

namespace PTable

open Mem (AbstractByte)

/-- Structural model of the interned types (`TyId` plus the `TyCtxt` type
oracle): primitives, tuples, arrays, and raw pointers, as `ty.kind(tcx)`
distinguishes them in `ptable.rs`. `unit` stands for `TyCtxt::UNIT`. -/
inductive Ty where
  | unit
  | bool
  | char
  | i8
  | i16
  | i32
  | i64
  | usize
  | tuple (elems : List Ty)
  | array (elem : Ty) (len : Nat)
  | rawPtr (pointee : Ty)

/-- `BasicMemory::ty_size` in bytes: primitives and pointers have fixed
sizes, arrays multiply, and composite tuple types have NO guaranteed size
(`None`). `TyCtxt::UNIT` has size 0. -/
def Ty.size : Ty → Option Nat
  | .unit => some 0
  | .bool => some 1
  | .char => some 4
  | .i8 => some 1
  | .i16 => some 2
  | .i32 => some 4
  | .i64 => some 8
  | .usize => some 8
  | .tuple _ => none
  | .array t n => (Ty.size t).map (· * n)
  | .rawPtr _ => some 8

/-- `TyId::is_any_ptr`. -/
def Ty.is_any_ptr : Ty → Bool
  | .rawPtr _ => true
  | _ => false

/-- `ProjectionElem`: the projection kinds appearing as place-graph edge
weights. -/
inductive ProjectionElem where
  | tupleField (idx : Nat)
  | field (idx : Nat)
  | constantIndex (offset : Nat)
  | deref
  | index (localId : Nat)
deriving DecidableEq

/-- `ProjectionElem::is_deref`. -/
def ProjectionElem.is_deref : ProjectionElem → Bool
  | .deref => true
  | _ => false

/-- `Literal` cached values (only the shapes the modelled operations
inspect). -/
inductive Literal where
  | uint (v : Nat)
  | int (v : Int)
  | boolLit (b : Bool)
deriving DecidableEq

/-- The attributes of one `PlaceNode` from `ptable.rs`. `bytes` stands for
the node's run (`run_ptr` plus the abstract bytes it points at): it is
`some _` exactly for nodes carrying a run pointer, and nodes whose run is a
view into an ancestor's run (array elements of a sized array) carry `none`
here because the byte state is owned by the run-bearing ancestor, which is
also where the state-propagation traversals stop. `pointee` is the target
of the node's outgoing `Deref` edge, named as a place reference
(local index, projection path). -/
structure PAttrs where
  ty : Ty
  dataflow : Nat
  moved : Bool
  bytes : Option (List AbstractByte)
  val : Option Literal
  offset : Option Int
  pointee : Option (Nat × List Nat)

/-- A place node together with its non-deref projection subtree. Within one
allocation `add_place` creates the non-deref subgraph as a tree (each child
node gets exactly one incoming projection edge), so the per-local subgraph
is embedded as a tree whose children are ordered as the projections were
inserted. -/
inductive PNode where
  | mk (attrs : PAttrs) (children : List (ProjectionElem × PNode)) : PNode

def PNode.attrs : PNode → PAttrs
  | .mk a _ => a

def PNode.children : PNode → List (ProjectionElem × PNode)
  | .mk _ cs => cs

/-- Replace the element at one index, leaving the list unchanged when the
index is out of range. -/
def listModifyIdx {α : Type} : List α → Nat → (α → α) → List α
  | [], _, _ => []
  | x :: xs, 0, f => f x :: xs
  | x :: xs, n + 1, f => x :: listModifyIdx xs n f

/-- Walk a projection path (given as child positions) down the tree:
`project_from_node` iterated, restricted to the non-deref tree. -/
def resolvePath : PNode → List Nat → Option PNode
  | t, [] => some t
  | t, i :: rest =>
    match t.children.get? i with
    | some c => resolvePath c.2 rest
    | none => none

/-- Apply `f` to the subtree at the given path (identity when the path does
not resolve). -/
def modifyAt : PNode → List Nat → (PNode → PNode) → PNode
  | t, [], f => f t
  | .mk a cs, i :: rest, f =>
    .mk a (listModifyIdx cs i (fun c => (c.1, modifyAt c.2 rest f)))

mutual
/-- The body of `is_place_init` below the liveness check: a run-bearing node
is initialized iff all its bytes are, a composite node iff all its immediate
non-deref children are. -/
def initTree : PNode → Bool
  | .mk a cs =>
    match a.bytes with
    | some bs => bs.all AbstractByte.is_init
    | none => initForest cs
def initForest : List (ProjectionElem × PNode) → Bool
  | [] => true
  | c :: rest => initTree c.2 && initForest rest
end

mutual
/-- The downward traversal of `mark_place_init`: write `Init` over a
run-bearing node's bytes and stop; otherwise recurse into the children. -/
def markInitTree : PNode → PNode
  | .mk a cs =>
    match a.bytes with
    | some bs => .mk { a with bytes := some (bs.map (fun _ => AbstractByte.init)) } cs
    | none => .mk a (markInitForest cs)
def markInitForest :
    List (ProjectionElem × PNode) → List (ProjectionElem × PNode)
  | [] => []
  | c :: rest => (c.1, markInitTree c.2) :: markInitForest rest
end

mutual
/-- The downward traversal of `mark_place_uninit`: write `Uninit` over a
run-bearing node's bytes and stop; otherwise recurse into the children. -/
def markUninitTree : PNode → PNode
  | .mk a cs =>
    match a.bytes with
    | some bs => .mk { a with bytes := some (bs.map (fun _ => AbstractByte.uninit)) } cs
    | none => .mk a (markUninitForest cs)
def markUninitForest :
    List (ProjectionElem × PNode) → List (ProjectionElem × PNode)
  | [] => []
  | c :: rest => (c.1, markUninitTree c.2) :: markUninitForest rest
end

mutual
/-- The downward traversal of `update_dataflow`: overwrite the dataflow of
every transitive subfield (the traversal never stops early). -/
def setFlowTree (v : Nat) : PNode → PNode
  | .mk a cs => .mk { a with dataflow := v } (setFlowForest v cs)
def setFlowForest (v : Nat) :
    List (ProjectionElem × PNode) → List (ProjectionElem × PNode)
  | [] => []
  | c :: rest => (c.1, setFlowTree v c.2) :: setFlowForest v rest
end

mutual
/-- Whether the `mark_place_uninit` traversal starting here flips at least
one byte: the node owns a nonempty run, or (for composite nodes) some child
subtree does. -/
def hasRealRunTree : PNode → Bool
  | .mk a cs =>
    match a.bytes with
    | some bs => !bs.isEmpty
    | none => hasRealRunForest cs
def hasRealRunForest : List (ProjectionElem × PNode) → Bool
  | [] => false
  | c :: rest => hasRealRunTree c.2 || hasRealRunForest rest
end

mutual
/-- The downward half of `assign_literal(p, None)`: clear the cached value
of every transitive subfield. -/
def clearValTree : PNode → PNode
  | .mk a cs => .mk { a with val := none } (clearValForest cs)
def clearValForest :
    List (ProjectionElem × PNode) → List (ProjectionElem × PNode)
  | [] => []
  | c :: rest => (c.1, clearValTree c.2) :: clearValForest rest
end

mutual
/-- All paths of the subtree rooted here (the node set that
`visit_transitive_subfields` collects, identified by paths). -/
def subpaths : PNode → List (List Nat)
  | .mk _ cs => [] :: subpathsForest 0 cs
def subpathsForest : Nat → List (ProjectionElem × PNode) → List (List Nat)
  | _, [] => []
  | i, c :: rest =>
    (subpaths c.2).map (fun p => i :: p) ++ subpathsForest (i + 1) rest
end

/-- The maximum of the immediate children's dataflow values
(`immediate_subfields(place).map(dataflow).max()`). -/
def maxChildFlow (cs : List (ProjectionElem × PNode)) : Option Nat :=
  (cs.map (fun c => c.2.attrs.dataflow)).max?

/-- One step of the upward pass of `update_dataflow`: when the node has
children, its dataflow becomes the max of their dataflow values (a node
without children is left as it is, matching the `if let Some(max)` guard). -/
def updMax (a : PAttrs) (cs2 : List (ProjectionElem × PNode)) : PNode :=
  match maxChildFlow cs2 with
  | some m => .mk { a with dataflow := m } cs2
  | none => .mk a cs2

/-- The upward half of `update_dataflow` composed with its downward half,
walking the path from the root: overwrite the target's subtree, then on the
way back up recompute each ancestor as the max of its (updated) children —
the same values the source's bottom-up worklist reads. -/
def update_df_aux : PNode → List Nat → Nat → PNode
  | t, [], v => setFlowTree v t
  | .mk a cs, i :: rest, v =>
    updMax a (listModifyIdx cs i (fun c => (c.1, update_df_aux c.2 rest v)))

/-- The upward half of `assign_literal(p, None)`: clear the cached value of
every transitive superfield, i.e. of every node strictly above the path's
target. -/
def clearValAncestors : PNode → List Nat → PNode
  | t, [] => t
  | .mk a cs, i :: rest =>
    .mk { a with val := none }
      (listModifyIdx cs i (fun c => (c.1, clearValAncestors c.2 rest)))

/-- One allocation owned by one local: the liveness flag of the allocation
together with the local's projection tree. -/
structure LocalAlloc where
  live : Bool
  root : PNode

/-- The place-table state the modelled operations touch: the locals of the
active frame, each owning one allocation (`allocate_local` creates exactly
one allocation per local, so the allocation id is the local's index). -/
structure PTState where
  locals : List LocalAlloc

/-- A resolved place: the owning local's index and the projection path from
its root (the `PlaceIndex` of a node, in tree coordinates). -/
structure PlaceRef where
  localIdx : Nat
  path : List Nat
deriving DecidableEq

/-- `ToPlaceIndex` resolution against the state. -/
def resolveRef (s : PTState) (r : PlaceRef) : Option PNode :=
  (s.locals.get? r.localIdx).bind (fun la => resolvePath la.root r.path)

/-- Apply `f` to the named local's tree. -/
def mapLocalTree (s : PTState) (i : Nat) (f : PNode → PNode) : PTState :=
  ⟨listModifyIdx s.locals i (fun la => { la with root := f la.root })⟩

/-- `is_place_live`: the place resolves and its allocation is live. -/
def is_place_live (s : PTState) (r : PlaceRef) : Bool :=
  (resolveRef s r).isSome &&
    (((s.locals.get? r.localIdx).map (fun la => la.live)).getD false)

/-- `is_place_init`: dead places are not initialized; live ones are
initialized according to the byte/children recursion (the source re-checks
liveness at every subfield, but subfields share the allocation, so those
checks collapse into the single check here). -/
def is_place_init (s : PTState) (r : PlaceRef) : Bool :=
  if !is_place_live s r then false
  else
    match resolveRef s r with
    | some t => initTree t
    | none => false

/-- `mark_place_init`. -/
def mark_place_init (s : PTState) (r : PlaceRef) : PTState :=
  mapLocalTree s r.localIdx (fun root => modifyAt root r.path markInitTree)

/-- Drop the node's outgoing Deref edge. -/
def setPointee (p : Option (Nat × List Nat)) : PNode → PNode
  | .mk a cs => .mk { a with pointee := p } cs

/-- The effect of `mark_place_uninit` at the marked node: a pointer first
loses its Deref edge (only at the marked node itself), then the downward
traversal runs. -/
def uninitMark (t : PNode) : PNode :=
  markUninitTree (if t.attrs.ty.is_any_ptr then setPointee none t else t)

/-- `mark_place_uninit`. -/
def mark_place_uninit (s : PTState) (r : PlaceRef) : PTState :=
  mapLocalTree s r.localIdx (fun root => modifyAt root r.path uninitMark)

/-- `update_dataflow`: clamp to 100, overwrite the target's subtree, then
recompute every ancestor as the max of its children. -/
def update_dataflow (s : PTState) (r : PlaceRef) (v : Nat) : PTState :=
  mapLocalTree s r.localIdx (fun root => update_df_aux root r.path (min v 100))

/-- The body of `overlap` once both places resolved: identical places
overlap; places of different allocations do not; otherwise the two
transitive-subfield sets are collected and intersected with the double
loop. -/
def overlapResolved (a b : PlaceRef) (ta tb : PNode) : Option Bool :=
  if a = b then some true
  else if a.localIdx ≠ b.localIdx then some false
  else
    some (((subpaths ta).map (fun p => a.path ++ p)).any
      (fun x => ((subpaths tb).map (fun p => b.path ++ p)).contains x))

/-- `overlap` (`none` models the panic when either place fails to
resolve). -/
def overlap (s : PTState) (a b : PlaceRef) : Option Bool :=
  match resolveRef s a with
  | none => none
  | some ta =>
    match resolveRef s b with
    | none => none
    | some tb => overlapResolved a b ta tb

/-- Set the node's cached literal value. -/
def setVal (v : Option Literal) : PNode → PNode
  | .mk a cs => .mk { a with val := v } cs

/-- Overwrite the node's run bytes (the effect of `memory.copy` into the
destination's run). -/
def setBytesA (b : Option (List AbstractByte)) : PNode → PNode
  | .mk a cs => .mk { a with bytes := b } cs

/-- Set the node's recorded pointer offset. -/
def setOffsetA (o : Option Int) : PNode → PNode
  | .mk a cs => .mk { a with offset := o } cs

/-- `assign_literal` (without the `index_candidates` cache, which only
serves dynamic-index resolution and is not observed by the modelled
claims): assigning `Some` records the value on the node; assigning `None`
clears the cached value of every transitive subfield and superfield. -/
def assign_literal (s : PTState) (r : PlaceRef) (val : Option Literal) : PTState :=
  match val with
  | some v =>
    mapLocalTree s r.localIdx (fun root => modifyAt root r.path (setVal (some v)))
  | none =>
    mapLocalTree s r.localIdx (fun root =>
      clearValAncestors (modifyAt root r.path clearValTree) r.path)

/-- `set_ref`: replace the reference's Deref edge with one to `ptee`, clear
the recorded offset, and propagate the pointee's dataflow into the
reference. -/
def set_ref (s : PTState) (reference ptee : PlaceRef) : PTState :=
  let flow := match resolveRef s ptee with
    | some t => t.attrs.dataflow
    | none => 0
  let s1 := mapLocalTree s reference.localIdx (fun root =>
    modifyAt root reference.path
      (fun t => setOffsetA none (setPointee (some (ptee.localIdx, ptee.path)) t)))
  update_dataflow s1 reference flow

mutual
/-- `copy_place`: when destination and source resolve to the same place the
call returns immediately with the state untouched; otherwise it propagates
the source's dataflow and cached literal, copies run bytes when the source
is byte-backed, mirrors the pointee edge and offset for pointer-typed
destinations, and recurses into the destination's non-deref projections
paired positionally with the source's. `fuel` bounds the recursion depth
(the source recursion is bounded by the finite type structure); the source's
type-equality assertion is not modelled. -/
def copy_place : Nat → PTState → PlaceRef → PlaceRef → PTState
  | 0, s, _, _ => s
  | fuel + 1, s, dst, src =>
    if dst = src then s
    else
      let srcFlow := match resolveRef s src with
        | some t => t.attrs.dataflow
        | none => 0
      let s1 := update_dataflow s dst srcFlow
      let srcVal := match resolveRef s1 src with
        | some t => t.attrs.val
        | none => none
      let s2 := assign_literal s1 dst srcVal
      let s3 := match (resolveRef s2 src).bind (fun t => t.attrs.bytes) with
        | some bs =>
          mapLocalTree s2 dst.localIdx (fun root =>
            modifyAt root dst.path (setBytesA (some bs)))
        | none => s2
      let s4 := match resolveRef s3 dst with
        | some t =>
          if t.attrs.ty.is_any_ptr then
            let s4a := match (resolveRef s3 src).bind (fun t2 => t2.attrs.pointee) with
              | some p => set_ref s3 dst ⟨p.1, p.2⟩
              | none => s3
            let srcOff := match resolveRef s4a src with
              | some t2 => t2.attrs.offset
              | none => none
            mapLocalTree s4a dst.localIdx (fun root =>
              modifyAt root dst.path (setOffsetA srcOff))
          else s3
        | none => s3
      let n := match resolveRef s4 dst with
        | some t => t.children.length
        | none => 0
      copy_children fuel s4 dst src 0 n
termination_by fuel s dst src => (fuel, 0)

/-- The recursion of `copy_place` over the destination's non-deref
projections, paired positionally with the source's. -/
def copy_children : Nat → PTState → PlaceRef → PlaceRef → Nat → Nat → PTState
  | _, s, _, _, _, 0 => s
  | fuel, s, dst, src, i, n + 1 =>
    let s2 := copy_place fuel s ⟨dst.localIdx, dst.path ++ [i]⟩
      ⟨src.localIdx, src.path ++ [i]⟩
    copy_children fuel s2 dst src (i + 1) n
termination_by fuel s dst src i n => (fuel, n + 1)
end

/-- C10: `copy_place(dst, src)` with `dst` and `src` resolving to the same
place index returns immediately, leaving the entire state (every node
attribute, edge, and memory byte) unchanged. -/
theorem c10_copy_place_self (fuel : Nat) (s : PTState) (r : PlaceRef) :
    copy_place fuel s r r = s := by
  cases fuel with
  | zero => simp [copy_place]
  | succ f => simp [copy_place]

theorem listModifyIdx_get?_self {α : Type} (l : List α) (i : Nat) (f : α → α) :
    (listModifyIdx l i f).get? i = (l.get? i).map f := by
  induction l generalizing i with
  | nil => simp [listModifyIdx]
  | cons x xs ih =>
    cases i with
    | zero => simp [listModifyIdx]
    | succ n => simpa [listModifyIdx] using ih n

theorem listModifyIdx_get?_ne {α : Type} (l : List α) (i j : Nat) (f : α → α)
    (h : i ≠ j) : (listModifyIdx l i f).get? j = l.get? j := by
  induction l generalizing i j with
  | nil => simp [listModifyIdx]
  | cons x xs ih =>
    cases i with
    | zero =>
      cases j with
      | zero => exact absurd rfl h
      | succ m => simp [listModifyIdx]
    | succ n =>
      cases j with
      | zero => simp [listModifyIdx]
      | succ m => simpa [listModifyIdx] using ih n m (by omega)

theorem listModifyIdx_length {α : Type} (l : List α) (i : Nat) (f : α → α) :
    (listModifyIdx l i f).length = l.length := by
  induction l generalizing i with
  | nil => rfl
  | cons x xs ih =>
    cases i with
    | zero => rfl
    | succ n => simpa [listModifyIdx] using ih n

theorem setFlowForest_get? (v : Nat) (cs : List (ProjectionElem × PNode)) (i : Nat) :
    (setFlowForest v cs).get? i = (cs.get? i).map (fun c => (c.1, setFlowTree v c.2)) := by
  induction cs generalizing i with
  | nil => simp [setFlowForest]
  | cons c rest ih =>
    cases i with
    | zero => simp [setFlowForest]
    | succ n => simpa [setFlowForest] using ih n

theorem setFlow_flow (v : Nat) (ext : List Nat) :
    ∀ t n, resolvePath (setFlowTree v t) ext = some n → n.attrs.dataflow = v := by
  induction ext with
  | nil =>
    intro t n h
    cases t with | mk a cs =>
    simp only [resolvePath, Option.some.injEq] at h
    subst h
    rfl
  | cons i rest ih =>
    intro t n h
    cases t with | mk a cs =>
    simp only [setFlowTree, resolvePath, PNode.children] at h
    rw [setFlowForest_get?] at h
    cases hc : cs.get? i with
    | none => rw [hc] at h; simp at h
    | some c =>
      rw [hc] at h
      simp only [Option.map_some'] at h
      exact ih c.2 n h

theorem updMax_children (a : PAttrs) (cs2 : List (ProjectionElem × PNode)) :
    (updMax a cs2).children = cs2 := by
  unfold updMax
  cases maxChildFlow cs2 <;> rfl

theorem update_df_aux_children (a : PAttrs) (cs : List (ProjectionElem × PNode))
    (i : Nat) (rest : List Nat) (v : Nat) :
    (update_df_aux (.mk a cs) (i :: rest) v).children =
      listModifyIdx cs i (fun c => (c.1, update_df_aux c.2 rest v)) :=
  updMax_children a _

theorem upd_subtree (v : Nat) (p : List Nat) :
    ∀ (ext : List Nat) (t n : PNode),
      resolvePath (update_df_aux t p v) (p ++ ext) = some n →
      n.attrs.dataflow = v := by
  induction p with
  | nil =>
    intro ext t n h
    rw [List.nil_append] at h
    cases t with | mk a cs =>
    exact setFlow_flow v ext (.mk a cs) n h
  | cons i rest ih =>
    intro ext t n h
    cases t with | mk a cs =>
    rw [List.cons_append] at h
    simp only [resolvePath] at h
    rw [update_df_aux_children, listModifyIdx_get?_self] at h
    cases hc : cs.get? i with
    | none => rw [hc] at h; simp at h
    | some c =>
      rw [hc] at h
      simp only [Option.map_some'] at h
      exact ih ext c.2 n h

theorem upd_ancestors (v : Nat) (q : List Nat) :
    ∀ (k : List Nat) (t n : PNode),
      (resolvePath t (q ++ k)).isSome = true → k ≠ [] →
      resolvePath (update_df_aux t (q ++ k) v) q = some n →
      (n.children.map (fun c => c.2.attrs.dataflow)).max? = some n.attrs.dataflow := by
  induction q with
  | nil =>
    intro k t n hres hk h
    cases k with
    | nil => exact absurd rfl hk
    | cons i rest =>
      cases t with | mk a cs =>
      simp only [List.nil_append] at hres h
      simp only [resolvePath, Option.some.injEq] at h
      have hcs : ∃ c, cs.get? i = some c := by
        simp only [resolvePath, PNode.children] at hres
        cases hc : cs.get? i with
        | none => rw [hc] at hres; simp at hres
        | some c => exact ⟨c, rfl⟩
      obtain ⟨c, hc⟩ := hcs
      have hne : listModifyIdx cs i (fun c => (c.1, update_df_aux c.2 rest v)) ≠ [] := by
        intro hemp
        have hlen := listModifyIdx_length cs i (fun c => (c.1, update_df_aux c.2 rest v))
        rw [hemp] at hlen
        have hnil : cs = [] := List.length_eq_zero.mp hlen.symm
        rw [hnil] at hc
        cases hc
      have hm : ∃ m, maxChildFlow
          (listModifyIdx cs i (fun c => (c.1, update_df_aux c.2 rest v))) = some m := by
        cases hcs2 : listModifyIdx cs i (fun c => (c.1, update_df_aux c.2 rest v)) with
        | nil => exact absurd hcs2 hne
        | cons x xs => exact ⟨_, rfl⟩
      obtain ⟨m, hm⟩ := hm
      have hupd : update_df_aux (.mk a cs) (i :: rest) v =
          updMax a (listModifyIdx cs i (fun c => (c.1, update_df_aux c.2 rest v))) := rfl
      rw [hupd] at h
      unfold updMax at h
      rw [hm] at h
      subst h
      exact hm
  | cons j q' ih =>
    intro k t n hres hk h
    cases t with | mk a cs =>
    simp only [List.cons_append] at hres h
    simp only [resolvePath] at h hres
    rw [update_df_aux_children, listModifyIdx_get?_self] at h
    cases hc : cs.get? j with
    | none => rw [hc] at h; simp at h
    | some c =>
      rw [hc] at h
      simp only [Option.map_some'] at h
      rw [PNode.children] at hres
      rw [hc] at hres
      exact ih k c.2 n hres hk h

/-- C2: after `update_dataflow(p, v)`, every transitive non-deref subfield
of `p` (including `p` itself) carries dataflow exactly `min(v, 100)`, and
every transitive non-deref superfield of `p` carries the maximum of its
immediate children's dataflow values. -/
theorem c2_update_dataflow (s : PTState) (r : PlaceRef) (v : Nat)
    (hres : (resolveRef s r).isSome = true) :
    (∀ ext n,
      resolveRef (update_dataflow s r v) ⟨r.localIdx, r.path ++ ext⟩ = some n →
      n.attrs.dataflow = min v 100) ∧
    (∀ q k n, q ++ k = r.path → k ≠ [] →
      resolveRef (update_dataflow s r v) ⟨r.localIdx, q⟩ = some n →
      (n.children.map (fun c => c.2.attrs.dataflow)).max? = some n.attrs.dataflow) := by
  obtain ⟨la, hla⟩ : ∃ la, s.locals.get? r.localIdx = some la := by
    unfold resolveRef at hres
    cases hl : s.locals.get? r.localIdx with
    | none => rw [hl] at hres; simp at hres
    | some la => exact ⟨la, rfl⟩
  have hroot : (resolvePath la.root r.path).isSome = true := by
    unfold resolveRef at hres
    rw [hla] at hres
    simpa using hres
  have hlocals : (update_dataflow s r v).locals.get? r.localIdx =
      some { la with root := update_df_aux la.root r.path (min v 100) } := by
    unfold update_dataflow mapLocalTree
    show (listModifyIdx s.locals r.localIdx _).get? r.localIdx = _
    rw [listModifyIdx_get?_self, hla]
    rfl
  constructor
  · intro ext n h
    unfold resolveRef at h
    rw [hlocals] at h
    simp only [Option.some_bind] at h
    exact upd_subtree (min v 100) r.path ext la.root n h
  · intro q k n hqk hk h
    unfold resolveRef at h
    rw [hlocals] at h
    simp only [Option.some_bind] at h
    rw [← hqk] at hroot
    rw [← hqk] at h
    exact upd_ancestors (min v 100) q k la.root n hroot hk h

/-- A live local of type `(i8, i64)` whose fields carry dataflow 3 and 9,
for the C2 witness. -/
def c2tree : PNode :=
  .mk ⟨.tuple [.i8, .i64], 0, false, none, none, none, none⟩
    [(.tupleField 0, .mk ⟨.i8, 3, false, some [.uninit], none, none, none⟩ []),
     (.tupleField 1, .mk ⟨.i64, 9, false, some (List.replicate 8 .uninit), none, none, none⟩ [])]

def c2state : PTState := ⟨[⟨true, c2tree⟩]⟩

/-- Field 0 of `c2tree` after `update_dataflow(field 0, 7)`. -/
def c2n1 : PNode := .mk ⟨.i8, 7, false, some [.uninit], none, none, none⟩ []

/-- The root of `c2tree` after `update_dataflow(field 0, 7)`: its dataflow
is the max 9 of its children's values 7 and 9. -/
def c2root : PNode :=
  .mk ⟨.tuple [.i8, .i64], 9, false, none, none, none, none⟩
    [(.tupleField 0, c2n1),
     (.tupleField 1, .mk ⟨.i64, 9, false, some (List.replicate 8 .uninit), none, none, none⟩ [])]

/-- Witness for C2 on `c2state`: updating field 0 to dataflow 7 sets that
field to 7 and recomputes the root as the max of its children, 9. -/
theorem c2_witness :
    (resolveRef (update_dataflow c2state ⟨0, [0]⟩ 7) ⟨0, [0]⟩).map
        (fun n => n.attrs.dataflow) = some 7 ∧
    (resolveRef (update_dataflow c2state ⟨0, [0]⟩ 7) ⟨0, []⟩).map
        (fun n => (n.children.map (fun c => c.2.attrs.dataflow)).max?) =
      some (some 9) := by
  have h := c2_update_dataflow c2state ⟨0, [0]⟩ 7 rfl
  constructor
  · have hr : resolveRef (update_dataflow c2state ⟨0, [0]⟩ 7)
        ⟨0, ([0] : List Nat) ++ []⟩ = some c2n1 := rfl
    have h1 := h.1 [] c2n1 hr
    rw [show resolveRef (update_dataflow c2state ⟨0, [0]⟩ 7) ⟨0, [0]⟩ = some c2n1
      from rfl]
    simpa using h1
  · have hr : resolveRef (update_dataflow c2state ⟨0, [0]⟩ 7) ⟨0, []⟩ =
        some c2root := rfl
    have h2 := h.2 [] [0] c2root rfl (by simp) hr
    rw [hr, Option.map_some', h2]
    rfl

theorem modifyAt_nil (t : PNode) (f : PNode → PNode) : modifyAt t [] f = f t := by
  cases t
  rfl

theorem modifyAt_cons (a : PAttrs) (cs : List (ProjectionElem × PNode)) (i : Nat)
    (rest : List Nat) (f : PNode → PNode) :
    modifyAt (.mk a cs) (i :: rest) f =
      .mk a (listModifyIdx cs i (fun c => (c.1, modifyAt c.2 rest f))) := rfl

theorem resolve_append (p : List Nat) :
    ∀ (q : List Nat) (t : PNode),
      resolvePath t (p ++ q) = (resolvePath t p).bind (fun n => resolvePath n q) := by
  induction p with
  | nil => intro q t; simp [resolvePath]
  | cons i rest ih =>
    intro q t
    cases t with | mk a cs =>
    simp only [List.cons_append, resolvePath, PNode.children]
    cases hc : cs.get? i with
    | none => simp
    | some c => simp [ih]

theorem mapLocalTree_get?_self (s : PTState) (l : Nat) (f : PNode → PNode) :
    (mapLocalTree s l f).locals.get? l =
      (s.locals.get? l).map (fun la => { la with root := f la.root }) :=
  listModifyIdx_get?_self s.locals l _

theorem resolve_modifyAt_above (f : PNode → PNode) (p : List Nat) :
    ∀ (ext : List Nat) (t : PNode),
      resolvePath (modifyAt t (p ++ ext) f) p =
        (resolvePath t p).map (fun n => modifyAt n ext f) := by
  induction p with
  | nil => intro ext t; simp [resolvePath]
  | cons i rest ih =>
    intro ext t
    cases t with | mk a cs =>
    simp only [List.cons_append, modifyAt, resolvePath, PNode.children]
    rw [listModifyIdx_get?_self]
    cases hc : cs.get? i with
    | none => simp
    | some c => simp [ih]

theorem initForest_eq_true_iff (cs : List (ProjectionElem × PNode)) :
    initForest cs = true ↔ ∀ i c, cs.get? i = some c → initTree c.2 = true := by
  induction cs with
  | nil => simp [initForest]
  | cons c rest ih =>
    simp only [initForest, Bool.and_eq_true, ih]
    constructor
    · rintro ⟨h1, h2⟩ i c2 hc
      cases i with
      | zero =>
        simp only [List.get?] at hc
        cases hc
        exact h1
      | succ n => exact h2 n c2 (by simpa using hc)
    · intro h
      exact ⟨h 0 c rfl, fun i c2 hc => h (i + 1) c2 (by simpa using hc)⟩

theorem hasRealRun_setPointee (t : PNode) :
    hasRealRunTree (setPointee none t) = hasRealRunTree t := by
  cases t
  rfl

mutual
theorem initTree_markInitTree : ∀ t, initTree (markInitTree t) = true
  | .mk a cs => by
    cases hb : a.bytes with
    | some bs =>
      simp [markInitTree, hb, initTree, List.all_map, Function.comp,
        AbstractByte.is_init]
    | none =>
      simp [markInitTree, hb, initTree, initForest_markInitForest cs]
theorem initForest_markInitForest : ∀ cs, initForest (markInitForest cs) = true
  | [] => rfl
  | c :: rest => by
    simp [markInitForest, initForest, initTree_markInitTree c.2,
      initForest_markInitForest rest]
end

mutual
theorem initTree_markUninitTree :
    ∀ t, hasRealRunTree t = true → initTree (markUninitTree t) = false
  | .mk a cs, h => by
    cases hb : a.bytes with
    | some bs =>
      rw [hasRealRunTree] at h
      rw [hb] at h
      simp only [Bool.not_eq_true'] at h
      cases bs with
      | nil => simp [List.isEmpty] at h
      | cons b bs2 =>
        simp [markUninitTree, hb, initTree, AbstractByte.is_init]
    | none =>
      rw [hasRealRunTree] at h
      rw [hb] at h
      simp [markUninitTree, hb, initTree, initForest_markUninitForest cs h]
theorem initForest_markUninitForest :
    ∀ cs, hasRealRunForest cs = true → initForest (markUninitForest cs) = false
  | c :: rest, h => by
    rw [hasRealRunForest] at h
    rcases Bool.or_eq_true_iff.mp h with h1 | h2
    · simp [markUninitForest, initForest, initTree_markUninitTree c.2 h1]
    · simp [markUninitForest, initForest, initForest_markUninitForest rest h2]
end

theorem is_place_init_eval (s : PTState) (r : PlaceRef) (la : LocalAlloc)
    (t : PNode) (hla : s.locals.get? r.localIdx = some la) (hlive : la.live = true)
    (hres : resolvePath la.root r.path = some t) :
    is_place_init s r = initTree t := by
  have hresR : resolveRef s r = some t := by
    unfold resolveRef
    rw [hla]
    simpa using hres
  unfold is_place_init is_place_live
  rw [hresR, hla]
  simp [hlive]

theorem initForest_false_of_child (cs : List (ProjectionElem × PNode)) (j : Nat)
    (c : ProjectionElem × PNode) (hc : cs.get? j = some c)
    (hinit : initTree c.2 = false) : initForest cs = false := by
  cases hif : initForest cs with
  | false => rfl
  | true =>
    have := (initForest_eq_true_iff cs).mp hif j c hc
    rw [hinit] at this
    cases this

theorem fold_marks_init (es : List Nat) :
    ∀ (s : PTState) (l : Nat) (p : List Nat) (la : LocalAlloc) (a : PAttrs)
      (cs : List (ProjectionElem × PNode)),
      s.locals.get? l = some la →
      resolvePath la.root p = some (.mk a cs) →
      ∃ la2 cs2,
        (es.foldl (fun st i => mark_place_init st ⟨l, p ++ [i]⟩) s).locals.get? l =
          some la2 ∧
        la2.live = la.live ∧
        resolvePath la2.root p = some (.mk a cs2) ∧
        cs2.length = cs.length ∧
        (∀ j c2, cs2.get? j = some c2 →
          (j ∈ es → initTree c2.2 = true) ∧ (j ∉ es → cs.get? j = some c2)) := by
  induction es with
  | nil =>
    intro s l p la a cs hla hres
    exact ⟨la, cs, hla, rfl, hres, rfl, fun j c2 hc =>
      ⟨fun hj => absurd hj (List.not_mem_nil _), fun _ => hc⟩⟩
  | cons i rest ih =>
    intro s l p la a cs hla hres
    set s1 := mark_place_init s ⟨l, p ++ [i]⟩ with hs1
    have hla1 : s1.locals.get? l =
        some { la with root := modifyAt la.root (p ++ [i]) markInitTree } := by
      rw [hs1]
      unfold mark_place_init
      rw [mapLocalTree_get?_self, hla]
      rfl
    have hres1 : resolvePath (modifyAt la.root (p ++ [i]) markInitTree) p =
        some (.mk a (listModifyIdx cs i (fun c => (c.1, markInitTree c.2)))) := by
      rw [resolve_modifyAt_above, hres]
      simp only [Option.map_some', modifyAt_cons]
      simp only [modifyAt_nil]
    obtain ⟨la2, cs2, h1, h2, h3, h4, h5⟩ :=
      ih s1 l p { la with root := modifyAt la.root (p ++ [i]) markInitTree } a
        (listModifyIdx cs i (fun c => (c.1, markInitTree c.2))) hla1 hres1
    refine ⟨la2, cs2, ?_, h2, h3, ?_, ?_⟩
    · rw [List.foldl_cons, ← hs1]
      exact h1
    · rw [h4, listModifyIdx_length]
    · intro j c2 hc
      constructor
      · intro hj
        rcases List.mem_cons.mp hj with hji | hjr
        · by_cases hjr2 : j ∈ rest
          · exact (h5 j c2 hc).1 hjr2
          · have hc1 := (h5 j c2 hc).2 hjr2
            rw [hji] at hc1
            rw [listModifyIdx_get?_self] at hc1
            cases hcs : cs.get? i with
            | none => rw [hcs] at hc1; cases hc1
            | some c =>
              rw [hcs] at hc1
              simp only [Option.map_some'] at hc1
              cases hc1
              exact initTree_markInitTree c.2
        · exact (h5 j c2 hc).1 hjr
      · intro hj
        have hji : j ≠ i := fun he => hj (he ▸ List.mem_cons_self i rest)
        have hjr : j ∉ rest := fun hr => hj (List.mem_cons_of_mem _ hr)
        have hc1 := (h5 j c2 hc).2 hjr
        rw [listModifyIdx_get?_ne cs i j _ (fun he => hji he.symm)] at hc1
        exact hc1

/-- C1, amended: for a live composite place `p` (a node with no run
pointer), `is_place_init(p)` is the conjunction of `is_place_init` over the
immediate non-deref children; after `mark_place_init` on every child,
`is_place_init(p)` holds; and `mark_place_uninit` on a single child makes
`is_place_init(p)` false PROVIDED the child's subtree owns at least one
nonempty byte run (a zero-sized child is always considered initialized). -/
theorem c1_init_amended (s : PTState) (r : PlaceRef) (la : LocalAlloc)
    (a : PAttrs) (cs : List (ProjectionElem × PNode))
    (hla : s.locals.get? r.localIdx = some la)
    (hlive : la.live = true)
    (hnode : resolvePath la.root r.path = some (.mk a cs))
    (hcomp : a.bytes = none) :
    (is_place_init s r = true ↔
      ∀ i c, cs.get? i = some c →
        is_place_init s ⟨r.localIdx, r.path ++ [i]⟩ = true) ∧
    (is_place_init
      ((List.range cs.length).foldl
        (fun st i => mark_place_init st ⟨r.localIdx, r.path ++ [i]⟩) s) r = true) ∧
    (∀ i c, cs.get? i = some c → hasRealRunTree c.2 = true →
      is_place_init (mark_place_uninit s ⟨r.localIdx, r.path ++ [i]⟩) r = false) := by
  have hroot_init : is_place_init s r = initForest cs := by
    rw [is_place_init_eval s r la (.mk a cs) hla hlive hnode]
    rw [initTree]
    rw [hcomp]
  have hchild : ∀ i c, cs.get? i = some c →
      is_place_init s ⟨r.localIdx, r.path ++ [i]⟩ = initTree c.2 := by
    intro i c hc
    refine is_place_init_eval s _ la c.2 hla hlive ?_
    rw [resolve_append, hnode]
    simp only [Option.some_bind, resolvePath, PNode.children]
    rw [hc]
  refine ⟨?_, ?_, ?_⟩
  · rw [hroot_init, initForest_eq_true_iff]
    constructor
    · intro h i c hc
      rw [hchild i c hc]
      exact h i c hc
    · intro h i c hc
      rw [← hchild i c hc]
      exact h i c hc
  · obtain ⟨la2, cs2, h1, h2, h3, h4, h5⟩ :=
      fold_marks_init (List.range cs.length) s r.localIdx r.path la a cs hla hnode
    rw [is_place_init_eval _ r la2 (.mk a cs2) h1 (h2.trans hlive) h3]
    rw [initTree, hcomp, initForest_eq_true_iff]
    intro j c2 hc
    have hjlen : j < cs2.length := by
      cases hlt : Nat.decLt j cs2.length with
      | isTrue hl => exact hl
      | isFalse hl =>
        rw [List.get?_eq_none.mpr (by omega)] at hc
        cases hc
    exact (h5 j c2 hc).1 (List.mem_range.mpr (h4 ▸ hjlen))
  · intro i c hc hrun
    have hla2 : (mark_place_uninit s ⟨r.localIdx, r.path ++ [i]⟩).locals.get?
        r.localIdx =
        some { la with root := modifyAt la.root (r.path ++ [i]) uninitMark } := by
      unfold mark_place_uninit
      rw [mapLocalTree_get?_self, hla]
      rfl
    have hres2 : resolvePath (modifyAt la.root (r.path ++ [i]) uninitMark) r.path =
        some (.mk a (listModifyIdx cs i (fun c => (c.1, uninitMark c.2)))) := by
      rw [resolve_modifyAt_above, hnode]
      simp only [Option.map_some', modifyAt_cons]
      simp only [modifyAt_nil]
    rw [is_place_init_eval _ r _ _ hla2 hlive hres2]
    rw [initTree, hcomp]
    refine initForest_false_of_child _ i (c.1, uninitMark c.2) ?_ ?_
    · rw [listModifyIdx_get?_self, hc]
      rfl
    · show initTree (uninitMark c.2) = false
      unfold uninitMark
      by_cases hp : c.2.attrs.ty.is_any_ptr = true
      · rw [if_pos hp]
        exact initTree_markUninitTree _ ((hasRealRun_setPointee c.2).trans hrun)
      · rw [if_neg hp]
        exact initTree_markUninitTree _ hrun

/-- A live local of type `((),)`: a composite root whose only child is the
zero-sized `TyCtxt::UNIT`, which owns an EMPTY run. -/
def c1tree : PNode :=
  .mk ⟨.tuple [.unit], 0, false, none, none, none, none⟩
    [(.tupleField 0, .mk ⟨.unit, 0, false, some [], none, none, none⟩ [])]

def c1state : PTState := ⟨[⟨true, c1tree⟩]⟩

/-- C1 counterexample: the root of `c1state` is a live composite place (no
run pointer), yet after `mark_place_uninit` on its single child the root is
STILL `is_place_init` — a zero-sized run has no bytes to flip, and a run
with no bytes is vacuously all-initialized, so the claim's "marking any
single child uninitialized makes p uninitialized" fails. -/
theorem c1_counterexample :
    is_place_live c1state ⟨0, []⟩ = true ∧
    (resolveRef c1state ⟨0, []⟩).map (fun n => n.attrs.bytes) = some none ∧
    is_place_init (mark_place_uninit c1state ⟨0, [0]⟩) ⟨0, []⟩ = true :=
  ⟨rfl, rfl, rfl⟩

/-- A live local of type `(i8,)` whose field owns one uninitialized byte. -/
def c1w_tree : PNode :=
  .mk ⟨.tuple [.i8], 0, false, none, none, none, none⟩
    [(.tupleField 0, .mk ⟨.i8, 0, false, some [.uninit], none, none, none⟩ [])]

def c1w_state : PTState := ⟨[⟨true, c1w_tree⟩]⟩

/-- Witness for the amended C1 theorem on `(i8,)`: marking the only child
initialized makes the root initialized, and marking it uninitialized (its
subtree owns a nonempty run) makes the root uninitialized. -/
theorem c1_witness :
    is_place_init
      ((List.range 1).foldl
        (fun st i => mark_place_init st ⟨0, ([] : List Nat) ++ [i]⟩) c1w_state)
      ⟨0, []⟩ = true ∧
    is_place_init (mark_place_uninit c1w_state ⟨0, ([] : List Nat) ++ [0]⟩)
      ⟨0, []⟩ = false := by
  have h := c1_init_amended c1w_state ⟨0, []⟩ ⟨true, c1w_tree⟩
    ⟨.tuple [.i8], 0, false, none, none, none, none⟩
    [(.tupleField 0, .mk ⟨.i8, 0, false, some [.uninit], none, none, none⟩ [])]
    rfl rfl rfl rfl
  exact ⟨h.2.1, h.2.2 0 (.tupleField 0,
    .mk ⟨.i8, 0, false, some [.uninit], none, none, none⟩ []) rfl rfl⟩

theorem any_contains_symm (as bs : List (List Nat)) :
    as.any (fun x => bs.contains x) = bs.any (fun x => as.contains x) := by
  have key : ∀ (xs ys : List (List Nat)),
      xs.any (fun x => ys.contains x) = true →
      ys.any (fun y => xs.contains y) = true := by
    intro xs ys h
    obtain ⟨x, hx, hcx⟩ := List.any_eq_true.mp h
    have hxy : x ∈ ys := by simpa using hcx
    exact List.any_eq_true.mpr ⟨x, hxy, by simpa using hx⟩
  refine Bool.eq_iff_iff.mpr ⟨key as bs, key bs as⟩

/-- C7: `overlap(p, p)` is true for every place that resolves, and
`overlap(a, b)` equals `overlap(b, a)` for all places. -/
theorem c7_overlap_refl_symm (s : PTState) :
    (∀ p t, resolveRef s p = some t → overlap s p p = some true) ∧
    (∀ a b, overlap s a b = overlap s b a) := by
  constructor
  · intro p t hres
    simp [overlap, hres, overlapResolved]
  · intro a b
    cases hra : resolveRef s a with
    | none =>
      cases hrb : resolveRef s b with
      | none => simp [overlap, hra, hrb]
      | some tb => simp [overlap, hra, hrb]
    | some ta =>
      cases hrb : resolveRef s b with
      | none => simp [overlap, hra, hrb]
      | some tb =>
        simp only [overlap, hra, hrb]
        unfold overlapResolved
        by_cases hab : a = b
        · subst hab
          rw [hra] at hrb
          cases hrb
          rfl
        · have hba : b ≠ a := fun h => hab h.symm
          rw [if_neg hab, if_neg hba]
          by_cases hl : a.localIdx = b.localIdx
          · rw [if_neg (by simp [hl]), if_neg (by simp [hl])]
            rw [any_contains_symm]
          · rw [if_pos hl, if_pos (fun h => hl h.symm)]

/-- Witness for C7: a place of `c2state` overlaps itself. -/
theorem c7_witness : overlap c2state ⟨0, [0]⟩ ⟨0, [0]⟩ = some true :=
  (c7_overlap_refl_symm c2state).1 ⟨0, [0]⟩
    (.mk ⟨.i8, 3, false, some [.uninit], none, none, none⟩ []) rfl

end PTable

namespace PGraph

open PTable (ProjectionElem Ty)

/-- One node of the program-global place graph, restricted to the
attributes `ProjectionIter` reads: the type and the recorded pointer
offset. -/
structure GNode where
  ty : Ty
  offset : Option Int

instance : Inhabited GNode := ⟨⟨.unit, none⟩⟩

/-- One edge of the `petgraph::Graph<PlaceNode, ProjectionElem>`: source
node, target node and the projection weight. Edge ids are indices into the
insertion-ordered edge list. -/
structure GEdge where
  src : Nat
  tgt : Nat
  weight : ProjectionElem
deriving DecidableEq

instance : Inhabited GEdge := ⟨⟨0, 0, .deref⟩⟩

/-- The place-graph snapshot the traversal consults: nodes, edges in
insertion order, and the `locals_with_val` query (the currently live,
unmoved locals known to hold a given usize value — resolved through the
`index_candidates` cache together with init/moved/known-value checks; the
snapshot carries the query's result). -/
structure GTable where
  nodes : List GNode
  edges : List GEdge
  localsWithVal : Nat → List Nat

/-- Pair each edge with its id, starting at `k`. -/
def enumEdges : Nat → List GEdge → List (Nat × GEdge)
  | _, [] => []
  | i, e :: rest => (i, e) :: enumEdges (i + 1) rest

/-- `edges_directed(n, Outgoing)`: petgraph keeps per-node edge lists with
the most recently added edge at the head, so iteration runs in REVERSE
insertion order. -/
def edgesDirectedOut (t : GTable) (n : Nat) : List (Nat × GEdge) :=
  ((enumEdges 0 t.edges).filter (fun e => e.2.src == n)).reverse

/-- The edge with a given id. -/
def edgeAt (t : GTable) (eid : Nat) : GEdge :=
  t.edges.getD eid default

/-- `offseted`: a pointer with offset unset or exactly zero is usable, any
other offset makes it unusable for dereferencing. -/
def offseted (t : GTable) (n : Nat) : Bool :=
  match (t.nodes.getD n default).offset with
  | none => false
  | some o => !(o == 0)

/-- `PlacePath`: a traversal root and the edge ids of the projections. -/
structure PlacePath where
  source : Nat
  path : List Nat
deriving DecidableEq

/-- `PlacePath::target_index`. -/
def PlacePath.targetIndex (t : GTable) (pp : PlacePath) : Nat :=
  match pp.path.getLast? with
  | some eid => (edgeAt t eid).tgt
  | none => pp.source

/-- The state of `ProjectionIter`. The source's `to_visit` Vec is popped
from the back; it is stored here reversed, with the head of the list as the
top of the stack. -/
structure ProjectionIter where
  root : Nat
  path : List Nat
  toVisit : List (Nat × Nat)
  rootVisited : Bool
deriving DecidableEq

/-- The guard of `ProjectionIter::new` on the root's outgoing edges: a
`ConstantIndex` edge needs a live local holding the index value, a `Deref`
edge is dropped when its source (the root) is offseted. -/
def newGuard (t : GTable) (e : Nat × GEdge) : Option (Nat × Nat) :=
  match e.2.weight with
  | .constantIndex off =>
    if (t.localsWithVal off).isEmpty then none else some (e.1, 1)
  | .deref => if offseted t e.2.src then none else some (e.1, 1)
  | _ => some (e.1, 1)

/-- `ProjectionIter::new`. -/
def iterNew (t : GTable) (root : Nat) : ProjectionIter :=
  ⟨root, [], ((edgesDirectedOut t root).filterMap (newGuard t)).reverse, false⟩

/-- The guard in `ProjectionIter::next` on a visited node's outgoing edges:
deref edges are never followed below the root, and `ConstantIndex` edges
need a live index local. -/
def nextGuard (t : GTable) (depth : Nat) (e : Nat × GEdge) : Option (Nat × Nat) :=
  if e.2.weight.is_deref then none
  else
    match e.2.weight with
    | .constantIndex off =>
      if (t.localsWithVal off).isEmpty then none else some (e.1, depth + 1)
    | _ => some (e.1, depth + 1)

/-- `Iterator::next` for `ProjectionIter`: the root is yielded first; then
the top of the stack is popped, the path truncated to its depth and
extended with the popped edge, and the target's guarded outgoing edges are
pushed. -/
def iterNext (t : GTable) (st : ProjectionIter) :
    Option (PlacePath × ProjectionIter) :=
  if !st.rootVisited then
    some (⟨st.root, []⟩, { st with rootVisited := true })
  else
    match st.toVisit with
    | [] => none
    | (eid, depth) :: rest =>
      let tgt := (edgeAt t eid).tgt
      let path2 := st.path.take (depth - 1) ++ [eid]
      let newEdges := (edgesDirectedOut t tgt).filterMap (nextGuard t depth)
      some (⟨st.root, path2⟩,
        { st with path := path2, toVisit := newEdges.reverse ++ rest })

/-- Drain the iterator, with fuel bounding the number of steps. -/
def iterToList (t : GTable) : Nat → ProjectionIter → List PlacePath
  | 0, _ => []
  | fuel + 1, st =>
    match iterNext t st with
    | some (pp, st2) => pp :: iterToList t fuel st2
    | none => []

/-- `reachable_from_node`, drained to a list. -/
def reachable_from_node (t : GTable) (fuel : Nat) (root : Nat) : List PlacePath :=
  iterToList t fuel (iterNew t root)

/-- The graph `add_place` builds for a local of type
`(i8, (i16, i32), i64)`: nodes in creation order (root, i8, the nested
tuple, i16, i32, i64), edges in insertion order (recursive construction
adds a field's subtree before the edge from the parent to the next
field). There are no usize-valued locals in this state. -/
def c3table : GTable :=
  ⟨[⟨.tuple [.i8, .tuple [.i16, .i32], .i64], none⟩, ⟨.i8, none⟩,
    ⟨.tuple [.i16, .i32], none⟩, ⟨.i16, none⟩, ⟨.i32, none⟩, ⟨.i64, none⟩],
   [⟨0, 1, .tupleField 0⟩, ⟨2, 3, .tupleField 0⟩, ⟨2, 4, .tupleField 1⟩,
    ⟨0, 2, .tupleField 1⟩, ⟨0, 5, .tupleField 2⟩],
   fun _ => []⟩

/-- C3: for a local of tuple type `(i8, (i16, i32), i64)` the reachability
traversal enumerates exactly six places, in depth-first preorder with
fields in declared order: the root, the i8 field, the nested tuple, its i16
and i32 fields, then the i64 field. -/
theorem c3_reachable_order :
    (reachable_from_node c3table 10 0).map (PlacePath.targetIndex c3table) =
      [0, 1, 2, 3, 4, 5] ∧
    (reachable_from_node c3table 10 0).map
        (fun pp => (c3table.nodes.getD (pp.targetIndex c3table) default).ty) =
      [.tuple [.i8, .tuple [.i16, .i32], .i64], .i8, .tuple [.i16, .i32],
        .i16, .i32, .i64] ∧
    reachable_from_node c3table 11 0 = reachable_from_node c3table 10 0 :=
  ⟨rfl, rfl, rfl⟩

theorem getD_of_get? {α : Type} [Inhabited α] (l : List α) (i : Nat) (x : α)
    (h : l.get? i = some x) : l.getD i default = x := by
  induction l generalizing i with
  | nil => cases h
  | cons a rest ih =>
    cases i with
    | zero =>
      simp only [List.get?] at h
      cases h
      rfl
    | succ n => exact ih n (by simpa using h)

theorem enumEdges_mem (l : List GEdge) : ∀ (k : Nat) (x : Nat × GEdge),
    x ∈ enumEdges k l → k ≤ x.1 ∧ l.get? (x.1 - k) = some x.2 := by
  induction l with
  | nil => intro k x h; simp [enumEdges] at h
  | cons e rest ih =>
    intro k x h
    rw [enumEdges] at h
    rcases List.mem_cons.mp h with rfl | hm
    · simp
    · obtain ⟨hk, hg⟩ := ih (k + 1) x hm
      refine ⟨by omega, ?_⟩
      have hdx : x.1 - k = (x.1 - (k + 1)) + 1 := by omega
      rw [hdx]
      simpa using hg

theorem edgesDirectedOut_mem (t : GTable) (n : Nat) (x : Nat × GEdge)
    (h : x ∈ edgesDirectedOut t n) :
    edgeAt t x.1 = x.2 ∧ x.2.src = n := by
  unfold edgesDirectedOut at h
  rw [List.mem_reverse] at h
  obtain ⟨hm, hf⟩ := List.mem_filter.mp h
  obtain ⟨-, hg⟩ := enumEdges_mem t.edges 0 x hm
  rw [Nat.sub_zero] at hg
  exact ⟨getD_of_get? t.edges x.1 x.2 hg, by simpa using hf⟩

/-- The deref discipline maintained by the traversal: every deref edge in
the current path sits at position 0, leaves the root, and was taken only
with the root's offset unset or zero; stacked entries have depth at least
1, and stacked deref edges (necessarily depth 1) leave the unoffseted
root. -/
def IterInv (t : GTable) (root : Nat) (st : ProjectionIter) : Prop :=
  st.root = root ∧
  (∀ i eid, st.path.get? i = some eid → (edgeAt t eid).weight = .deref →
    i = 0 ∧ (edgeAt t eid).src = root ∧ offseted t root = false) ∧
  (∀ e ∈ st.toVisit, 1 ≤ e.2 ∧
    ((edgeAt t e.1).weight = .deref →
      e.2 = 1 ∧ (edgeAt t e.1).src = root ∧ offseted t root = false))

theorem iterNew_inv (t : GTable) (root : Nat) : IterInv t root (iterNew t root) := by
  refine ⟨rfl, ?_, ?_⟩
  · intro i eid h
    simp [iterNew] at h
  · intro e he
    simp only [iterNew] at he
    rw [List.mem_reverse] at he
    obtain ⟨x, hx, hgx⟩ := List.mem_filterMap.mp he
    obtain ⟨hedge, hsrc⟩ := edgesDirectedOut_mem t root x hx
    unfold newGuard at hgx
    cases hw : x.2.weight with
    | deref =>
      rw [hw] at hgx
      by_cases hoff : offseted t x.2.src = true
      · simp [hoff] at hgx
      · simp only [hoff, Bool.false_eq_true, if_false, Option.some.injEq] at hgx
        subst hgx
        refine ⟨le_refl 1, fun _ => ⟨rfl, ?_, ?_⟩⟩
        · rw [hedge, hsrc]
        · rw [hsrc] at hoff
          simpa using hoff
    | constantIndex off =>
      rw [hw] at hgx
      by_cases hiv : (t.localsWithVal off).isEmpty = true
      · simp [hiv] at hgx
      · simp only [hiv, Bool.false_eq_true, if_false, Option.some.injEq] at hgx
        subst hgx
        refine ⟨le_refl 1, fun hd => ?_⟩
        rw [hedge, hw] at hd
        cases hd
    | tupleField idx =>
      rw [hw] at hgx
      simp only [Option.some.injEq] at hgx
      subst hgx
      refine ⟨le_refl 1, fun hd => ?_⟩
      rw [hedge, hw] at hd
      cases hd
    | field idx =>
      rw [hw] at hgx
      simp only [Option.some.injEq] at hgx
      subst hgx
      refine ⟨le_refl 1, fun hd => ?_⟩
      rw [hedge, hw] at hd
      cases hd
    | index localId =>
      rw [hw] at hgx
      simp only [Option.some.injEq] at hgx
      subst hgx
      refine ⟨le_refl 1, fun hd => ?_⟩
      rw [hedge, hw] at hd
      cases hd

theorem nextGuard_sound (t : GTable) (depth : Nat) (tgt : Nat)
    (e : Nat × Nat) (he : e ∈ (edgesDirectedOut t tgt).filterMap (nextGuard t depth)) :
    e.2 = depth + 1 ∧ ¬(edgeAt t e.1).weight = .deref := by
  obtain ⟨x, hx, hgx⟩ := List.mem_filterMap.mp he
  obtain ⟨hedge, -⟩ := edgesDirectedOut_mem t tgt x hx
  unfold nextGuard at hgx
  by_cases hd : x.2.weight.is_deref = true
  · simp [hd] at hgx
  · rw [if_neg (by simpa using hd)] at hgx
    have hnd : ¬(edgeAt t e.1).weight = .deref → True := fun _ => trivial
    cases hw : x.2.weight with
    | constantIndex off =>
      rw [hw] at hgx
      by_cases hiv : (t.localsWithVal off).isEmpty = true
      · simp [hiv] at hgx
      · simp only [hiv, Bool.false_eq_true, if_false, Option.some.injEq] at hgx
        subst hgx
        refine ⟨rfl, ?_⟩
        rw [hedge, hw]
        intro hcontra
        cases hcontra
    | deref =>
      rw [hw] at hd
      simp [PTable.ProjectionElem.is_deref] at hd
    | tupleField idx =>
      rw [hw] at hgx
      simp only [Option.some.injEq] at hgx
      subst hgx
      refine ⟨rfl, ?_⟩
      rw [hedge, hw]
      intro hcontra
      cases hcontra
    | field idx =>
      rw [hw] at hgx
      simp only [Option.some.injEq] at hgx
      subst hgx
      refine ⟨rfl, ?_⟩
      rw [hedge, hw]
      intro hcontra
      cases hcontra
    | index localId =>
      rw [hw] at hgx
      simp only [Option.some.injEq] at hgx
      subst hgx
      refine ⟨rfl, ?_⟩
      rw [hedge, hw]
      intro hcontra
      cases hcontra

theorem iterNext_inv (t : GTable) (root : Nat) (st : ProjectionIter)
    (hinv : IterInv t root st) (pp : PlacePath) (st2 : ProjectionIter)
    (hstep : iterNext t st = some (pp, st2)) :
    IterInv t root st2 ∧ pp.source = root ∧
    (∀ i eid, pp.path.get? i = some eid → (edgeAt t eid).weight = .deref →
      i = 0 ∧ (edgeAt t eid).src = root ∧ offseted t root = false) := by
  obtain ⟨hroot, hpath, hvisit⟩ := hinv
  unfold iterNext at hstep
  by_cases hrv : st.rootVisited = true
  · rw [if_neg (by simp [hrv])] at hstep
    cases hv : st.toVisit with
    | nil => rw [hv] at hstep; cases hstep
    | cons ed rest =>
      rw [hv] at hstep
      obtain ⟨eid, depth⟩ := ed
      simp only [Option.some.injEq, Prod.mk.injEq] at hstep
      obtain ⟨hpp, hst2⟩ := hstep
      have hed := hvisit (eid, depth) (by rw [hv]; exact List.mem_cons_self _ _)
      have hrest : ∀ e ∈ rest, 1 ≤ e.2 ∧
          ((edgeAt t e.1).weight = .deref →
            e.2 = 1 ∧ (edgeAt t e.1).src = root ∧ offseted t root = false) :=
        fun e he => hvisit e (by rw [hv]; exact List.mem_cons_of_mem _ he)
      have hpath2 : ∀ i eid2,
          (st.path.take (depth - 1) ++ [eid]).get? i = some eid2 →
          (edgeAt t eid2).weight = .deref →
          i = 0 ∧ (edgeAt t eid2).src = root ∧ offseted t root = false := by
        intro i eid2 hg hd
        by_cases hlt : i < (st.path.take (depth - 1)).length
        · rw [List.get?_append hlt] at hg
          have hkl : i < depth - 1 := by
            have hlt2 := List.length_take (depth - 1) st.path
            omega
          rw [List.get?_take hkl] at hg
          exact hpath i eid2 hg hd
        · push_neg at hlt
          rw [List.get?_append_right hlt] at hg
          have hj : i - (st.path.take (depth - 1)).length = 0 ∧ eid2 = eid := by
            cases hd2 : i - (st.path.take (depth - 1)).length with
            | zero =>
              rw [hd2] at hg
              simp only [List.get?] at hg
              cases hg
              exact ⟨rfl, rfl⟩
            | succ m =>
              rw [hd2] at hg
              simp at hg
          obtain ⟨hi0, rfl⟩ := hj
          obtain ⟨hd1, hsrc', hoff'⟩ := hed.2 hd
          have hlen0 : (st.path.take (depth - 1)).length = 0 := by
            have hd1b : depth = 1 := hd1
            rw [hd1b]
            simp
          refine ⟨by omega, hsrc', hoff'⟩
      constructor
      · rw [← hst2]
        refine ⟨hroot, ?_, ?_⟩
        · exact hpath2
        · intro e he
          rcases List.mem_append.mp he with hnew | hold
          · rw [List.mem_reverse] at hnew
            obtain ⟨hd2, hnd⟩ := nextGuard_sound t depth _ e hnew
            exact ⟨by omega, fun hcontra => absurd hcontra hnd⟩
          · exact hrest e hold
      · rw [← hpp]
        exact ⟨hroot, hpath2⟩
  · rw [if_pos (by simp [hrv])] at hstep
    simp only [Option.some.injEq, Prod.mk.injEq] at hstep
    obtain ⟨hpp, hst2⟩ := hstep
    constructor
    · rw [← hst2]
      exact ⟨hroot, hpath, hvisit⟩
    · rw [← hpp]
      exact ⟨hroot, fun i eid h => by simp at h⟩

theorem iterToList_sound (t : GTable) (root : Nat) :
    ∀ (fuel : Nat) (st : ProjectionIter), IterInv t root st →
      ∀ pp ∈ iterToList t fuel st,
        pp.source = root ∧
        (∀ i eid, pp.path.get? i = some eid → (edgeAt t eid).weight = .deref →
          i = 0 ∧ (edgeAt t eid).src = root ∧ offseted t root = false) := by
  intro fuel
  induction fuel with
  | zero =>
    intro st hinv pp hpp
    simp [iterToList] at hpp
  | succ f ih =>
    intro st hinv pp hpp
    rw [iterToList] at hpp
    cases hstep : iterNext t st with
    | none => rw [hstep] at hpp; simp at hpp
    | some res =>
      rw [hstep] at hpp
      obtain ⟨pp2, st2⟩ := res
      rcases List.mem_cons.mp hpp with rfl | hm
      · exact (iterNext_inv t root st hinv _ st2 hstep).2
      · exact ih st2 (iterNext_inv t root st hinv pp2 st2 hstep).1 pp hm

/-- The graph of the source's `pointers` test: `root: *const (*const i32,)`
with `root -[Deref]-> tuple -[Field(0)]-> tuple.0 -[Deref]-> int`, edges in
insertion order (the tuple's field edge first, then the two `set_ref`
edges). No pointer is offseted. -/
def c4table : GTable :=
  ⟨[⟨.rawPtr (.tuple [.rawPtr .i32]), none⟩, ⟨.tuple [.rawPtr .i32], none⟩,
    ⟨.rawPtr .i32, none⟩, ⟨.i32, none⟩],
   [⟨1, 2, .tupleField 0⟩, ⟨2, 3, .deref⟩, ⟨0, 1, .deref⟩],
   fun _ => []⟩

/-- C4: the traversal follows a deref edge only as the first step out of
the traversal root, and only when the root's recorded offset is unset or
exactly zero; deref edges out of non-root nodes are never followed. Hence
for `root: *const (*const i32,)` pointing at a tuple whose field 0 points
at an i32, reachability from the root enumerates exactly the root, the
tuple and the tuple's field 0 — and never the inner i32 (node 3). -/
theorem c4_deref_only_at_root :
    (∀ (t : GTable) (root fuel : Nat) (pp : PlacePath),
      pp ∈ reachable_from_node t fuel root →
      ∀ i eid, pp.path.get? i = some eid → (edgeAt t eid).weight = .deref →
        i = 0 ∧ (edgeAt t eid).src = root ∧ offseted t root = false) ∧
    ((reachable_from_node c4table 10 0).map (PlacePath.targetIndex c4table) =
        [0, 1, 2] ∧
      reachable_from_node c4table 11 0 = reachable_from_node c4table 10 0 ∧
      ∀ pp ∈ reachable_from_node c4table 10 0, pp.targetIndex c4table ≠ 3) := by
  constructor
  · intro t root fuel pp hpp
    exact (iterToList_sound t root fuel (iterNew t root) (iterNew_inv t root) pp hpp).2
  · refine ⟨rfl, rfl, ?_⟩
    decide

/-- Witness for C4: the deref step `root -[Deref]-> tuple` of `c4table`
(edge id 2, the second emitted path) satisfies the theorem's conclusion —
it is the path's first projection, it leaves the root, and the root is not
offseted. -/
theorem c4_witness :
    (0 = 0 ∧ (edgeAt c4table 2).src = 0 ∧ offseted c4table 0 = false) :=
  c4_deref_only_at_root.1 c4table 0 10 ⟨0, [2]⟩ (by decide) 0 2 rfl rfl

end PGraph
